import Mathlib

/-!
nvcachetools: the cache unpacker `nvcachedec.c` and the section extractor
`nvucdump.c`.

A shallow embedding of the run-length decoder `unrle` and of the container
walker in `main` of `nvcachedec.c`, and of the section walker in `main` of
`nvucdump.c`, together with the properties of the specification that concern
them.

Conventions of the embedding (the LP64 data model the tool is built for):

* a byte (`uint8_t`, `char`) is a `Fin 256`;
* `size_t` is 64 bits wide, `ssize_t` is its signed counterpart, `int` and
  `uint32_t` are 32 bits wide; arithmetic that the C code performs in one of
  these types is written over `Nat` with an explicit reduction;
* a buffer is a `List Byte`; a pointer into a buffer is an index; a read or a
  write outside the buffer is the outcome `oob` (undefined behaviour in C);
* loops whose trip count is not syntactically bounded run on fuel; running out
  of fuel is the outcome `fuel`, which the theorems show never to happen.
-/

namespace NvCache

/-! ## The embedding -/

/-- One byte, the C type `uint8_t`. -/
abbrev Byte := Fin 256

/-- Outcome of running a C function: it returned a value; or it read or wrote
outside a buffer or through a null pointer (`oob`, undefined behaviour in C);
or the iteration bound of the embedding was exhausted (`fuel`). -/
inductive Exec (α : Type) where
  | ret (a : α) : Exec α
  | oob : Exec α
  | fuel : Exec α
  deriving DecidableEq, Repr

/-- Conversion `size_t -> ssize_t` performed by `return wrsz;`. -/
def toSsize (n : Nat) : Int :=
  if n < 2 ^ 63 then (n : Int) else (n : Int) - 2 ^ 64

/-- Local variables of `unrle`: the read pointer `r` (as an index into `src`),
the counter `wrsz` and the contents of the destination buffer `d`. -/
structure RleState where
  r : Nat
  wrsz : Nat
  d : List Byte
  deriving DecidableEq, Repr

/-- How the inner `for` loop of `unrle` ends: by falling through to the rest
of the `while` body, by `return`, or by an access outside a buffer. -/
inductive RleFlow where
  | next (s : RleState) : RleFlow
  | ret (v : Int) (d : List Byte) : RleFlow
  | oob : RleFlow
  deriving DecidableEq, Repr

/-- The value stored by `d[wrsz]= t<0x2?*r: t==0x2?0xFF: 0;`. -/
def rleValue (src : List Byte) (t r : Nat) : Option Byte :=
  if t < 2 then src[r]? else if t = 2 then some 0xFF else some 0

/-- The statement `if (wrsz<dstcap) d[wrsz]= ...;`: the buffer afterwards, or
`none` when the read or the write falls outside its buffer. -/
def rleStore (dstcap : Nat) (src : List Byte) (t : Nat) (s : RleState) :
    Option (List Byte) :=
  if s.wrsz < dstcap then
    match rleValue src t s.r with
    | none => none
    | some v => if s.wrsz < s.d.length then some (s.d.set s.wrsz v) else none
  else some s.d

/-- The loop `for (uint8_t i=0;i<l;i++) { ... }` of `unrle`; the first numeric
argument is the number of iterations still to run, `l - i`. -/
def unrleFor (dstcap : Nat) (src : List Byte) (t : Nat) : Nat → RleState → RleFlow
  | 0, s => .next s
  | k + 1, s =>
    if t < 2 ∧ s.r = src.length then .ret (-1) s.d
    else
      match rleStore dstcap src t s with
      | none => .oob
      | some d1 =>
        unrleFor dstcap src t k
          ⟨if t = 0 then s.r + 1 else s.r, (s.wrsz + 1) % 2 ^ 64, d1⟩

/-- The loop `while (r<end) { ... }` of `unrle` followed by `return wrsz;`.
The first numeric argument is fuel: one unit per iteration and one for the
final test. -/
def unrleLoop (dstcap : Nat) (src : List Byte) : Nat → RleState → Exec (Int × List Byte)
  | 0, _ => .fuel
  | n + 1, s =>
    if s.r < src.length then
      match src[s.r]? with
      | none => .oob
      | some b =>
        let l := b.val &&& 0x3F
        let t := b.val >>> 6
        if l = 0 then .ret (-2, s.d)
        else
          match unrleFor dstcap src t l ⟨s.r + 1, s.wrsz, s.d⟩ with
          | .next s1 =>
            unrleLoop dstcap src n ⟨if t = 1 then s1.r + 1 else s1.r, s1.wrsz, s1.d⟩
          | .ret v d => .ret (v, d)
          | .oob => .oob
    else .ret (toSsize s.wrsz, s.d)

/-- The function `unrle (dst, dstcap, src, srclen)`: `dst` is the memory the
destination pointer addresses (empty for a null pointer), `src` the `srclen`
input bytes. Returns the `ssize_t` result and the destination memory. -/
def unrle (dst : List Byte) (dstcap : Nat) (src : List Byte) : Exec (Int × List Byte) :=
  unrleLoop dstcap src (src.length + 1) ⟨0, 0, dst⟩

/-- The function `unrle_geterror`. -/
def unrle_geterror (e : Int) : String :=
  if e = -1 then "truncated input"
  else if e = -2 then "not Nv RLE"
  else if e < 0 then "undefined error"
  else "no error"

/-- The buffer `d'` has the size of `d` and agrees with it from index `c` on. -/
def Frame (c : Nat) (d d' : List Byte) : Prop :=
  d'.length = d.length ∧ ∀ i, c ≤ i → d'[i]? = d[i]?

/-- The buffers `dA` and `dB` agree at every index below both `m` and `w`. -/
def Agree (m w : Nat) (dA dB : List Byte) : Prop :=
  ∀ i, i < m → i < w → dA[i]? = dB[i]?

/-- Two runs of the inner loop from the same read position and counter end the
same way: both fall through with the same position and counter, or both return
`-1`; each keeps its buffer outside its capacity. -/
def FlowSim (src : List Byte) (t k r cA cB m : Nat) (dA dB : List Byte)
    (fA fB : RleFlow) : Prop :=
  (∃ r1 w1 dA1 dB1, fA = .next ⟨r1, w1, dA1⟩ ∧ fB = .next ⟨r1, w1, dB1⟩ ∧
      r ≤ r1 ∧ r1 ≤ src.length ∧ (t ≠ 0 → r1 = r) ∧ (t = 1 → 0 < k → r1 < src.length) ∧
      w1 < 2 ^ 64 ∧ Frame cA dA dA1 ∧ Frame cB dB dB1 ∧ Agree m w1 dA1 dB1) ∨
  (∃ dA1 dB1, fA = .ret (-1) dA1 ∧ fB = .ret (-1) dB1 ∧ Frame cA dA dA1 ∧ Frame cB dB dB1)

/-- Two runs of the decoder on the same input from the same position and
counter return the same value; each keeps its buffer outside its capacity, and
on a regular exit with counter `w1` the buffers agree below `m` and `w1`. -/
def RunSim (cA cB m : Nat) (dA dB : List Byte) (xA xB : Exec (Int × List Byte)) : Prop :=
  ∃ v dA1 dB1, xA = .ret (v, dA1) ∧ xB = .ret (v, dB1) ∧
    Frame cA dA dA1 ∧ Frame cB dB dB1 ∧
    ((v = -1 ∨ v = -2) ∨ ∃ w1, w1 < 2 ^ 64 ∧ v = toSsize w1 ∧ Agree m w1 dA1 dB1)

/-- The control byte of a record: the operation in the top 2 bits, the run
length in the low 6 bits. -/
def ctrlByte (op len : Nat) : Byte :=
  ⟨(op * 64 + len) % 256, Nat.mod_lt _ (by norm_num)⟩

/-- A well-formed record of the run-length format, as the specification
describes it: copy of `L` data bytes (operation 0, `L` the number of data
bytes), fill with one data byte (operation 1), fill with `0xFF` (operation 2),
fill with `0x00` (operation 3). -/
inductive Record where
  | copy (data : List Byte) : Record
  | fill (len : Nat) (b : Byte) : Record
  | fillFF (len : Nat) : Record
  | fill00 (len : Nat) : Record
  deriving DecidableEq, Repr

/-- The run length `L` of a record. -/
def Record.len : Record → Nat
  | .copy data => data.length
  | .fill len _ => len
  | .fillFF len => len
  | .fill00 len => len

/-- The operation code of a record. -/
def Record.op : Record → Nat
  | .copy _ => 0
  | .fill _ _ => 1
  | .fillFF _ => 2
  | .fill00 _ => 3

/-- The input bytes that follow the control byte. -/
def Record.payload : Record → List Byte
  | .copy data => data
  | .fill _ b => [b]
  | .fillFF _ => []
  | .fill00 _ => []

/-- The encoding of a record: control byte, then the bytes the operation
consumes. -/
def Record.encode (x : Record) : List Byte :=
  ctrlByte x.op x.len :: x.payload

/-- Reference expansion of one record, following the specification. -/
def Record.expand : Record → List Byte
  | .copy data => data
  | .fill len b => List.replicate len b
  | .fillFF len => List.replicate len 0xFF
  | .fill00 len => List.replicate len 0x00

/-- The concatenated encoding of a sequence of records. -/
def encodeAll : List Record → List Byte
  | [] => []
  | x :: xs => x.encode ++ encodeAll xs

/-- The reference decoder: the concatenation of the per-record expansions. -/
def expandAll : List Record → List Byte
  | [] => []
  | x :: xs => x.expand ++ expandAll xs

/-- Every record has a run length in 1..63. -/
def WellFormed (recs : List Record) : Prop :=
  ∀ x ∈ recs, 1 ≤ x.len ∧ x.len ≤ 63

instance (recs : List Record) : Decidable (WellFormed recs) := by
  unfold WellFormed
  infer_instance

/-- Sequencing of outcomes: undefined behaviour and fuel exhaustion propagate. -/
def Exec.bind {α β : Type} (x : Exec α) (f : α → Exec β) : Exec β :=
  match x with
  | .ret a => f a
  | .oob => .oob
  | .fuel => .fuel

/-- A read that is undefined behaviour when it falls outside the buffer. -/
def Exec.ofOption {α : Type} : Option α → Exec α
  | some a => .ret a
  | none => .oob

/-- The `uint32_t` stored at byte offset `off` of `buf` (little-endian; the
program refuses to run on a big-endian machine). -/
def le32At (buf : List Byte) (off : Nat) : Option Nat :=
  match buf[off]?, buf[off + 1]?, buf[off + 2]?, buf[off + 3]? with
  | some a, some b, some c, some d =>
    some (a.val + 256 * b.val + 65536 * c.val + 16777216 * d.val)
  | _, _, _, _ => none

/-- The `n` bytes of `buf` starting at offset `off`, when they lie inside it. -/
def slice (buf : List Byte) (off n : Nat) : Option (List Byte) :=
  if off + n ≤ buf.length then some ((buf.drop off).take n) else none

/-- The macro `PACKFMT_RAW`. -/
abbrev PACKFMT_RAW : Nat := 1

/-- The macro `PACKFMT_RLE`. -/
abbrev PACKFMT_RLE : Nat := 2

/-- The macro `PACKFMT_ZSTD`. -/
abbrev PACKFMT_ZSTD : Nat := 3

/-- The macro `OBJTYPE_ARB`. -/
abbrev OBJTYPE_ARB : Nat := 1

/-- The macro `OBJTYPE_NVUC`. -/
abbrev OBJTYPE_NVUC : Nat := 2

/-- The macro `OBJTYPE_NVVM_NVUC`. -/
abbrev OBJTYPE_NVVM_NVUC : Nat := 3

/-- The macro `OBJTYPE_NVUC_FROMNVVM`. -/
abbrev OBJTYPE_NVUC_FROMNVVM : Nat := 4

/-- An entry of a magic table (`struct magic`): the kind it announces and the
first `len` bytes of `match`, with `len` the length of the list. -/
structure Magic where
  type : Nat
  bytes : List Byte
  deriving DecidableEq, Repr

/-- The table `packmagic`. -/
def packmagic : List Magic :=
  [⟨PACKFMT_RLE, [0x05, 0x4E, 0x56, 0x75, 0x63]⟩,
   ⟨PACKFMT_ZSTD, [0x28, 0xB5, 0x2F, 0xFD]⟩,
   ⟨PACKFMT_RAW, [0x0A, 0x00, 0x00, 0x00]⟩,
   ⟨PACKFMT_RAW, [0x0B, 0x00, 0x00, 0x00]⟩]

/-- The table `objmagic`. -/
def objmagic : List Magic :=
  [⟨OBJTYPE_NVUC, [0x4E, 0x56, 0x75, 0x63]⟩,
   ⟨OBJTYPE_NVVM_NVUC, [0x4E, 0x56, 0x56, 0x4D, 0x4E, 0x56, 0x75, 0x63]⟩,
   ⟨OBJTYPE_ARB, [0x0A, 0x00, 0x00, 0x00]⟩,
   ⟨OBJTYPE_ARB, [0x0B, 0x00, 0x00, 0x00]⟩]

/-- The table search
`for (...) if (size>=m.len&&!memcmp(buf,m.match.b,m.len)) { type=m.type; break; }`
starting from `type=0`. -/
def findMagic : List Magic → List Byte → Nat
  | [], _ => 0
  | m :: rest, buf =>
    if buf.length ≥ m.bytes.length ∧ buf.take m.bytes.length = m.bytes then m.type
    else findMagic rest buf

/-- The computation of `packfmt` (lines 227-246 of `nvcachedec.c`) from the
packed payload and the header field `hupksize`. -/
def classifyPacking (packed : List Byte) (hupksize : Nat) : Exec Nat :=
  let pf0 := findMagic packmagic packed
  let pf1 := if packed.length = 1 ∧ packed[0]? = some 0 then PACKFMT_RAW else pf0
  let pf2 := if pf1 = 0 ∧ hupksize = packed.length then PACKFMT_RAW else pf1
  if pf2 = 0 then
    (unrle [] 0 packed).bind fun res =>
      .ret (if (hupksize : Int) = res.1 then PACKFMT_RLE else pf2)
  else .ret pf2

/-- The extension `rawext` of the packed payload artifact. -/
def rawext (packfmt : Nat) : Option String :=
  let e0 : Option String := none
  let e1 := if packfmt = PACKFMT_RLE then some "rle" else e0
  let e2 := if packfmt = PACKFMT_ZSTD then some "zstd" else e1
  let e3 := if packfmt = PACKFMT_RAW then some "raw" else e2
  if packfmt = 0 then some "unknown" else e3

/-- What the walker takes from its environment: the library function
`ZSTD_decompress` (`none` when `ZSTD_isError` holds of its result, otherwise
the `zr` bytes it wrote to `dst`), and the indeterminate initial contents of a
block obtained from `malloc`. -/
structure Env where
  ZSTD_decompress : Nat → List Byte → Option (List Byte)
  garbage : Nat → Byte

/-- The contents of a fresh block `malloc(n)`. -/
def Env.malloc (env : Env) (n : Nat) : List Byte :=
  (List.range n).map env.garbage

/-- The decompression stage (lines 282-321): the bytes `upk[0..upksize)`, or
`none` for `goto skip`. -/
def decompress (env : Env) (packfmt : Nat) (packed : List Byte) (hupksize : Nat) :
    Exec (Option (List Byte)) :=
  if packfmt = PACKFMT_RAW then .ret (some packed)
  else if packfmt = PACKFMT_ZSTD then
    match env.ZSTD_decompress hupksize packed with
    | none => .ret none
    | some out => if out.length ≠ hupksize then .ret none else .ret (some out)
  else if packfmt = PACKFMT_RLE then
    (unrle (env.malloc hupksize) hupksize packed).bind fun res =>
      if res.1 < 0 then .ret none
      else if res.1 ≠ (hupksize : Int) then .ret none
      else .ret (some (res.2.take res.1.toNat))
  else .ret (some [])

/-- The computation of `objtype` (lines 323-335) from the decompressed bytes. -/
def classifyObject (upk : List Byte) : Nat :=
  let t0 := findMagic objmagic upk
  if t0 = 0 ∧ upk.length ≥ 8 then
    if le32At upk 0 = some (upk.length - 4) ∧ le32At upk 4 = some 0x0A then OBJTYPE_ARB
    else t0
  else t0

/-- The extension `objext` and the bytes of the decompressed artifact
(lines 337-360): an outer-tag-wrapped object loses its first four bytes. -/
def objectArtifact (upk : List Byte) : Option String × List Byte :=
  let objtype := classifyObject upk
  let e0 : Option String := none
  let e1 := if objtype = OBJTYPE_ARB then some "arbbin" else e0
  let e2 := if objtype = OBJTYPE_NVUC then some "nvuc" else e1
  let strip := objtype = OBJTYPE_NVVM_NVUC ∧ upk.length ≥ 4
  let e3 := if strip then some "nvuc" else e2
  let upk1 := if strip then upk.drop 4 else upk
  let objtype1 := if strip then OBJTYPE_NVUC_FROMNVVM else objtype
  let e4 := if objtype1 = 0 then some "bin" else e3
  (e4, upk1)

/-- The conversion `%05d` of a non-negative `int`. -/
def fmt05d (i : Nat) : String :=
  String.mk (List.replicate (5 - (Nat.toDigits 10 i).length) '0' ++ Nat.toDigits 10 i)

/-- A file written to the output directory: its name and its contents. -/
abbrev File := String × List Byte

/-- The name `header%05d.bin`. -/
def headerName (i : Nat) : String := "header" ++ fmt05d i ++ ".bin"

/-- The name `object%05d.<ext>`. -/
def objectName (i : Nat) (ext : String) : String := "object" ++ fmt05d i ++ "." ++ ext

/-- Lines 215-367: the artifacts of entry `i` once its header `hdr` has passed
validation; `packed` is the payload and `hupksize` the header field 8. -/
def emitEntry (env : Env) (i : Nat) (hdr packed : List Byte) (hupksize : Nat) :
    Exec (List File) :=
  (classifyPacking packed hupksize).bind fun packfmt =>
  (Exec.ofOption (rawext packfmt)).bind fun ext =>
  let files := [(headerName i, hdr), (objectName i ext, packed)]
  if packfmt = 0 then .ret files
  else
    (decompress env packfmt packed hupksize).bind fun r =>
    match r with
    | none => .ret files
    | some upk =>
      (Exec.ofOption (objectArtifact upk).1).bind fun oext =>
      .ret (files ++ [(objectName i oext, (objectArtifact upk).2)])

/-- One iteration of the entry loop (lines 163-375) for the index entry with
fields `binoffset` and `tsectsize`: `none` for `return 1`, otherwise the files
written before the loop moves to the next entry. -/
def processEntry (env : Env) (bin : List Byte) (i binoffset tsectsize : Nat) :
    Exec (Option (List File)) :=
  if tsectsize < 0x4 then .ret (some [])
  else
    let packedsize := tsectsize - 0x4
    if binoffset > bin.length ∨ (binoffset + 0x24 + packedsize) % 2 ^ 32 > bin.length then
      .ret none
    else
      (Exec.ofOption (slice bin binoffset 0x24)).bind fun hdr =>
      (Exec.ofOption (le32At hdr 0)).bind fun magic =>
      (Exec.ofOption (le32At hdr 28)).bind fun hsectsize =>
      (Exec.ofOption (le32At hdr 32)).bind fun hupksize =>
      if hsectsize ≠ tsectsize then .ret (some [])
      else if magic ≠ 0x9846A19D then .ret (some [])
      else
        (Exec.ofOption (slice bin (binoffset + 0x24) packedsize)).bind fun packed =>
        (emitEntry env i hdr packed hupksize).bind fun files => .ret (some files)

/-- The loop `for (int i=0;i<nentries;i++)`; the first numeric argument is
`nentries - i`. Returns the exit status and the files written. -/
def entryLoop (env : Env) (toc bin : List Byte) : Nat → Nat → List File → Exec (Int × List File)
  | 0, _, acc => .ret (0, acc)
  | k + 1, i, acc =>
    (Exec.ofOption (le32At toc (0x20 + i * 0x18 + 16))).bind fun binoffset =>
    (Exec.ofOption (le32At toc (0x20 + i * 0x18 + 20))).bind fun tsectsize =>
    (processEntry env bin i binoffset tsectsize).bind fun r =>
    match r with
    | none => .ret (1, acc)
    | some files => entryLoop env toc bin k (i + 1) (acc ++ files)

/-- Conversion of a `size_t` value to `int` (`int nentries=(tocsize-0x20)/0x18;`). -/
def toInt32 (n : Nat) : Int :=
  if n % 2 ^ 32 < 2 ^ 31 then ((n % 2 ^ 32 : Nat) : Int) else ((n % 2 ^ 32 : Nat) : Int) - 2 ^ 32

/-- The value of `nentries` for an index file of `tocsize` bytes. -/
def nentries (tocsize : Nat) : Int :=
  toInt32 ((tocsize - 0x20) / 0x18)

/-- The tag `"CDVN"` of the index file. -/
def tocMagic : List Byte := [0x43, 0x44, 0x56, 0x4E]

/-- The function `main` from line 151 on, once both files are in memory and the
output directory is entered: the exit status and the files written. -/
def main (env : Env) (toc bin : List Byte) : Exec (Int × List File) :=
  if toc.length < 0x20 ∨ (toc.length - 0x20) % 0x18 ≠ 0 then .ret (1, [])
  else if toc.take 4 ≠ tocMagic then .ret (1, [])
  else entryLoop env toc bin (nentries toc.length).toNat 0 []

/-- The packing kinds of the specification. -/
inductive PackKind where
  | raw : PackKind
  | rle : PackKind
  | zstd : PackKind
  | unknown : PackKind
  deriving DecidableEq, Repr

/-- The value of `packfmt` that stands for a packing kind. -/
def PackKind.code : PackKind → Nat
  | .raw => PACKFMT_RAW
  | .rle => PACKFMT_RLE
  | .zstd => PACKFMT_ZSTD
  | .unknown => 0

/-- Packing classification in the words of the specification: the first
matching magic in priority order; only if none matches, RAW when the payload
length equals the declared uncompressed size, otherwise RLE when the size probe
of the RLE codec yields that size; otherwise unknown. -/
def specPacking (P : List Byte) (U : Nat) : PackKind :=
  if [0x05, 0x4E, 0x56, 0x75, 0x63] <+: P then .rle
  else if [0x28, 0xB5, 0x2F, 0xFD] <+: P then .zstd
  else if [0x0A, 0x00, 0x00, 0x00] <+: P ∨ [0x0B, 0x00, 0x00, 0x00] <+: P then .raw
  else if P.length = U then .raw
  else if unrle [] 0 P = .ret ((U : Int), []) then .rle
  else .unknown

/-- The classification the code computes: as `specPacking`, except that a
payload consisting of the single byte `00` is RAW. -/
def specPackingAmended (P : List Byte) (U : Nat) : PackKind :=
  if P = [0x00] then .raw else specPacking P U

/-- The object kinds of the specification. -/
inductive ObjKind where
  | arb : ObjKind
  | nvuc : ObjKind
  | nvvmNvuc : ObjKind
  | unknown : ObjKind
  deriving DecidableEq, Repr

/-- The value of `objtype` that stands for an object kind. -/
def ObjKind.code : ObjKind → Nat
  | .arb => OBJTYPE_ARB
  | .nvuc => OBJTYPE_NVUC
  | .nvvmNvuc => OBJTYPE_NVVM_NVUC
  | .unknown => 0

/-- Object-type classification in the words of the specification: microcode
archive if the bytes start with `NVuc`; else outer-tag-wrapped microcode
archive if they start with `NVVMNVuc`; else assembly archive if there are at
least 4 bytes and the first little-endian 32-bit word is `0x0A` or `0x0B`;
else assembly archive if there are at least 8 bytes, the first word equals the
length minus 4 and the second word is `0x0A`; otherwise unknown. -/
def specObject (D : List Byte) : ObjKind :=
  if [0x4E, 0x56, 0x75, 0x63] <+: D then .nvuc
  else if [0x4E, 0x56, 0x56, 0x4D, 0x4E, 0x56, 0x75, 0x63] <+: D then .nvvmNvuc
  else if D.length ≥ 4 ∧ (le32At D 0 = some 0x0A ∨ le32At D 0 = some 0x0B) then .arb
  else if D.length ≥ 8 ∧ le32At D 0 = some (D.length - 4) ∧ le32At D 4 = some 0x0A then .arb
  else .unknown

/-- The file extension of the packed payload artifact for a packing kind. -/
def PackKind.ext : PackKind → String
  | .raw => "raw"
  | .rle => "rle"
  | .zstd => "zstd"
  | .unknown => "unknown"

/-- The three kinds of artifact the walker writes for an entry. -/
inductive ArtifactKind where
  | header : ArtifactKind
  | packed : ArtifactKind
  | object : ArtifactKind
  deriving DecidableEq, Repr

/-- The extensions a file of a given kind can carry. -/
def ArtifactKind.exts : ArtifactKind → List String
  | .header => ["bin"]
  | .packed => ["raw", "rle", "zstd", "unknown"]
  | .object => ["arbbin", "nvuc", "bin"]

/-- The file name of the artifact of kind `k` of entry `i`; `ext` is the
extension chosen by the classification (a header is always `.bin`). -/
def artifactName (i : Nat) (k : ArtifactKind) (ext : String) : String :=
  match k with
  | .header => headerName i
  | .packed => objectName i ext
  | .object => objectName i ext

/-- The number a decimal digit character stands for. -/
def digitVal (c : Char) : Nat := c.toNat - 48

/-- The number a string of decimal digits stands for. -/
def charsVal (cs : List Char) : Nat := cs.foldl (fun a c => 10 * a + digitVal c) 0

/-! ### The section extractor (`main` of `nvucdump.c`) -/

/-- The tag `"NVuc"` of a microcode archive. -/
def nvucMagic : List Byte := [0x4E, 0x56, 0x75, 0x63]

/-- The conversion `%d` of a non-negative `int`. -/
def fmtd (i : Nat) : String := String.mk (Nat.toDigits 10 i)

/-- The conversion `%04X` of an `unsigned`. -/
def fmt04X (v : Nat) : String :=
  String.mk (List.replicate (4 - (Nat.toDigits 16 v).length) '0' ++
    (Nat.toDigits 16 v).map Char.toUpper)

/-- The name `section%d_%04X.bin`. -/
def sectionName (i typecode : Nat) : String :=
  "section" ++ fmtd i ++ "_" ++ fmt04X typecode ++ ".bin"

/-- One iteration of the section loop of `nvucdump.c` (lines 87-107), for the
table entry `i` of the archive `bin`: the files it writes (none when the
section is skipped). `objsize` is the archive size rounded down to whole
32-bit words. -/
def processSection (bin : List Byte) (objsize i : Nat) : Exec (List File) :=
  (Exec.ofOption (le32At bin (4 * (8 + 8 * i) + 4))).bind fun length =>
  (Exec.ofOption (le32At bin (4 * (8 + 8 * i) + 8))).bind fun offset =>
  (Exec.ofOption (le32At bin (4 * (8 + 8 * i)))).bind fun typecode =>
  if offset &&& 0x3 ≠ 0 then .ret []
  else if offset > objsize ∨ (offset + length) % 2 ^ 32 > objsize then .ret []
  else
    (Exec.ofOption (slice bin offset length)).bind fun data =>
    .ret [(sectionName i typecode, data)]

/-- The loop `for (int i=0;i<nsections;i++)` of `nvucdump.c`; the first numeric
argument is `nsections - i`. Returns the exit status and the files written. -/
def sectionLoop (bin : List Byte) (objsize : Nat) : Nat → Nat → List File → Exec (Int × List File)
  | 0, _, acc => .ret (0, acc)
  | k + 1, i, acc =>
    (processSection bin objsize i).bind fun files =>
    sectionLoop bin objsize k (i + 1) (acc ++ files)

/-- The function `main` of `nvucdump.c` from line 69 on, once the archive is in
memory and the output directory is entered. -/
def nvucdump_main (bin : List Byte) : Exec (Int × List File) :=
  let objl := bin.length >>> 2
  let objsize := objl <<< 2
  if objl < 8 then .ret (1, [])
  else if bin.take 4 ≠ nvucMagic then .ret (1, [])
  else
    (Exec.ofOption (le32At bin 8)).bind fun w2 =>
    let nsections := w2 &&& 0xFFFF
    if objl < 8 + 8 * nsections then .ret (1, [])
    else sectionLoop bin objsize nsections 0 []

/-! ### The memory accesses of `unrle` -/

/-- A record of what a run of `unrle` did to memory, most recent first: the
indices of `src` it read, the indices of `dst` it wrote, and the successive
values of the read pointer `r`. -/
structure RleLog where
  reads : List Nat
  writes : List Nat
  ptrs : List Nat
  deriving DecidableEq, Repr

/-- Record a read of `src[i]`. -/
def RleLog.read (log : RleLog) (i : Nat) : RleLog :=
  ⟨i :: log.reads, log.writes, log.ptrs⟩

/-- Record a write to `d[i]`. -/
def RleLog.write (log : RleLog) (i : Nat) : RleLog :=
  ⟨log.reads, i :: log.writes, log.ptrs⟩

/-- Record an assignment of `p` to the read pointer. -/
def RleLog.move (log : RleLog) (p : Nat) : RleLog :=
  ⟨log.reads, log.writes, p :: log.ptrs⟩

/-- The accesses of `if (wrsz<dstcap) d[wrsz]= t<0x2?*r: t==0x2?0xFF: 0;`:
under the guard, a read of `*r` when `t<0x2`, then a write of `d[wrsz]`. -/
def logStore (dstcap t : Nat) (s : RleState) (log : RleLog) : RleLog :=
  if s.wrsz < dstcap then (if t < 2 then log.read s.r else log).write s.wrsz else log

/-- The accesses of the inner `for` loop of `unrle`, run as `unrleFor` runs. -/
def unrleForLog (dstcap : Nat) (src : List Byte) (t : Nat) : Nat → RleState → RleLog → RleLog
  | 0, _, log => log
  | k + 1, s, log =>
    if t < 2 ∧ s.r = src.length then log
    else
      match rleStore dstcap src t s with
      | none => logStore dstcap t s log
      | some d1 =>
        unrleForLog dstcap src t k
          ⟨if t = 0 then s.r + 1 else s.r, (s.wrsz + 1) % 2 ^ 64, d1⟩
          (if t = 0 then (logStore dstcap t s log).move (s.r + 1) else logStore dstcap t s log)

/-- The accesses of the `while` loop of `unrle`, run as `unrleLoop` runs: the
read of the control byte `*r`, the step `++r`, the accesses of the inner loop,
and the step `++r` after a fill-from-input record. -/
def unrleLoopLog (dstcap : Nat) (src : List Byte) : Nat → RleState → RleLog → RleLog
  | 0, _, log => log
  | n + 1, s, log =>
    if s.r < src.length then
      match src[s.r]? with
      | none => log.read s.r
      | some b =>
        let l := b.val &&& 0x3F
        let t := b.val >>> 6
        if l = 0 then log.read s.r
        else
          match unrleFor dstcap src t l ⟨s.r + 1, s.wrsz, s.d⟩ with
          | .next s1 =>
            unrleLoopLog dstcap src n ⟨if t = 1 then s1.r + 1 else s1.r, s1.wrsz, s1.d⟩
              (if t = 1 then
                (unrleForLog dstcap src t l ⟨s.r + 1, s.wrsz, s.d⟩
                  ((log.read s.r).move (s.r + 1))).move (s1.r + 1)
              else
                unrleForLog dstcap src t l ⟨s.r + 1, s.wrsz, s.d⟩
                  ((log.read s.r).move (s.r + 1)))
          | .ret _ _ =>
            unrleForLog dstcap src t l ⟨s.r + 1, s.wrsz, s.d⟩ ((log.read s.r).move (s.r + 1))
          | .oob =>
            unrleForLog dstcap src t l ⟨s.r + 1, s.wrsz, s.d⟩ ((log.read s.r).move (s.r + 1))
    else log

/-- The accesses of a call `unrle (dst, dstcap, src, srclen)`; the read pointer
starts at index 0. -/
def unrleLog (dst : List Byte) (dstcap : Nat) (src : List Byte) : RleLog :=
  unrleLoopLog dstcap src (src.length + 1) ⟨0, 0, dst⟩ ⟨[], [], [0]⟩

/-- Every recorded read is inside an input of `n` bytes, every recorded write
is below the capacity `c`, and the read pointer never moved backwards and is
at most `r` now. -/
def LogInv (n c r : Nat) (log : RleLog) : Prop :=
  (∀ i ∈ log.reads, i < n) ∧ (∀ i ∈ log.writes, i < c) ∧ (∀ p ∈ log.ptrs, p ≤ r) ∧
    log.ptrs.Pairwise (fun a b => b ≤ a)

/-! ## Properties -/

theorem Frame.refl (c : Nat) (d : List Byte) : Frame c d d :=
  ⟨rfl, fun _ _ => rfl⟩

theorem Frame.trans {c : Nat} {d d1 d2 : List Byte} (h1 : Frame c d d1) (h2 : Frame c d1 d2) :
    Frame c d d2 :=
  ⟨h2.1.trans h1.1, fun i hi => (h2.2 i hi).trans (h1.2 i hi)⟩

theorem rleValue_some (src : List Byte) (t r : Nat) (hv : t < 2 → r < src.length) :
    ∃ v, rleValue src t r = some v := by
  unfold rleValue
  by_cases ht : t < 2
  · exact ⟨src[r], by simp [ht, hv ht]⟩
  · by_cases h2 : t = 2
    · exact ⟨0xFF, by simp [h2]⟩
    · exact ⟨0, by simp [ht, h2]⟩

theorem rleStore_eq {c : Nat} {src : List Byte} {t r w : Nat} {d : List Byte} {v : Byte}
    (hc : c ≤ d.length) (hv : rleValue src t r = some v) :
    rleStore c src t ⟨r, w, d⟩ = some (if w < c then d.set w v else d) := by
  unfold rleStore
  by_cases hw : w < c
  · have : w < d.length := by omega
    simp [hw, hv, this]
  · simp [hw]

theorem frame_store (c w : Nat) (d : List Byte) (v : Byte) :
    Frame c d (if w < c then d.set w v else d) := by
  by_cases hw : w < c
  · simp only [hw, if_true]
    refine ⟨List.length_set _ _ _, fun i hi => ?_⟩
    exact List.getElem?_set_ne (by omega)
  · simp only [hw, if_false]
    exact Frame.refl c d

theorem agree_store {cA cB m w : Nat} {dA dB : List Byte} (v : Byte)
    (hmA : m ≤ cA) (hmB : m ≤ cB) (hA : cA ≤ dA.length) (hB : cB ≤ dB.length)
    (hag : Agree m w dA dB) :
    Agree m ((w + 1) % 2 ^ 64) (if w < cA then dA.set w v else dA)
      (if w < cB then dB.set w v else dB) := by
  intro i him hiw
  have hle : (w + 1) % 2 ^ 64 ≤ w + 1 := Nat.mod_le _ _
  by_cases hi : i = w
  · subst hi
    have h1 : i < cA := by omega
    have h2 : i < cB := by omega
    have h3 : i < dA.length := by omega
    have h4 : i < dB.length := by omega
    simp [h1, h2, h3, h4]
  · have hlt : i < w := by omega
    have hne : w ≠ i := fun h => hi h.symm
    have e1 : (if w < cA then dA.set w v else dA)[i]? = dA[i]? := by
      split
      · exact List.getElem?_set_ne hne
      · rfl
    have e2 : (if w < cB then dB.set w v else dB)[i]? = dB[i]? := by
      split
      · exact List.getElem?_set_ne hne
      · rfl
    rw [e1, e2]
    exact hag i him hlt

theorem unrleFor_sim {cA cB m : Nat} (src : List Byte) (t : Nat) (hmA : m ≤ cA) (hmB : m ≤ cB) :
    ∀ (k r w : Nat) (dA dB : List Byte), cA ≤ dA.length → cB ≤ dB.length →
      r ≤ src.length → w < 2 ^ 64 → Agree m w dA dB →
      FlowSim src t k r cA cB m dA dB
        (unrleFor cA src t k ⟨r, w, dA⟩) (unrleFor cB src t k ⟨r, w, dB⟩) := by
  intro k
  induction k with
  | zero =>
    intro r w dA dB _ _ hr hw hag
    exact Or.inl ⟨r, w, dA, dB, rfl, rfl, le_refl _, hr, fun _ => rfl,
      fun _ h => absurd h (lt_irrefl 0), hw, Frame.refl _ _, Frame.refl _ _, hag⟩
  | succ k ih =>
    intro r w dA dB hA hB hr hw hag
    by_cases hchk : t < 2 ∧ r = src.length
    · refine Or.inr ⟨dA, dB, ?_, ?_, Frame.refl _ _, Frame.refl _ _⟩ <;>
        simp [unrleFor, hchk]
    · have hv : t < 2 → r < src.length := by
        intro ht
        have : r ≠ src.length := fun h => hchk ⟨ht, h⟩
        omega
      obtain ⟨v, hv1⟩ := rleValue_some src t r hv
      have fA := frame_store cA w dA v
      have fB := frame_store cB w dB v
      have hr1 : (if t = 0 then r + 1 else r) ≤ src.length := by
        split
        · have := hv (by omega)
          omega
        · exact hr
      have hstep := ih (if t = 0 then r + 1 else r) ((w + 1) % 2 ^ 64)
        (if w < cA then dA.set w v else dA) (if w < cB then dB.set w v else dB)
        (by rw [fA.1]; exact hA) (by rw [fB.1]; exact hB) hr1
        (Nat.mod_lt _ (by norm_num)) (agree_store v hmA hmB hA hB hag)
      have eA : unrleFor cA src t (k + 1) ⟨r, w, dA⟩ =
          unrleFor cA src t k ⟨if t = 0 then r + 1 else r, (w + 1) % 2 ^ 64,
            if w < cA then dA.set w v else dA⟩ := by
        simp only [unrleFor, hchk, if_false, rleStore_eq hA hv1]
      have eB : unrleFor cB src t (k + 1) ⟨r, w, dB⟩ =
          unrleFor cB src t k ⟨if t = 0 then r + 1 else r, (w + 1) % 2 ^ 64,
            if w < cB then dB.set w v else dB⟩ := by
        simp only [unrleFor, hchk, if_false, rleStore_eq hB hv1]
      rw [eA, eB]
      rcases hstep with ⟨r1, w1, dA1, dB1, h1, h2, h3, h4, h5, h6, h7, h8, h9, h10⟩ |
          ⟨dA1, dB1, h1, h2, h3, h4⟩
      · refine Or.inl ⟨r1, w1, dA1, dB1, h1, h2, ?_, h4, ?_, ?_, h7, fA.trans h8,
          fB.trans h9, h10⟩
        · have : r ≤ (if t = 0 then r + 1 else r) := by split <;> omega
          omega
        · intro ht
          have := h5 ht
          simpa [ht] using this
        · intro ht _
          have hne : t ≠ 0 := by omega
          have := h5 hne
          simp only [hne, if_false] at this
          have := hv (by omega)
          omega
      · exact Or.inr ⟨dA1, dB1, h1, h2, fA.trans h3, fB.trans h4⟩

theorem unrleLoop_end {c : Nat} {src : List Byte} {n r w : Nat} {d : List Byte}
    (h : ¬ r < src.length) :
    unrleLoop c src (n + 1) ⟨r, w, d⟩ = .ret (toSsize w, d) := by
  simp [unrleLoop, h]

theorem unrleLoop_bad {c : Nat} {src : List Byte} {n r w : Nat} {d : List Byte} {b : Byte}
    (hb : src[r]? = some b) (hl : b.val &&& 0x3F = 0) :
    unrleLoop c src (n + 1) ⟨r, w, d⟩ = .ret (-2, d) := by
  have h : r < src.length := by
    rcases List.getElem?_eq_some.mp hb with ⟨h, _⟩
    exact h
  simp only [unrleLoop, h, if_true]
  rw [hb]
  simp [hl]

theorem unrleLoop_next {c : Nat} {src : List Byte} {n r w : Nat} {d : List Byte} {b : Byte}
    {s1 : RleState} (hb : src[r]? = some b) (hl : b.val &&& 0x3F ≠ 0)
    (hf : unrleFor c src (b.val >>> 6) (b.val &&& 0x3F) ⟨r + 1, w, d⟩ = .next s1) :
    unrleLoop c src (n + 1) ⟨r, w, d⟩ =
      unrleLoop c src n ⟨if b.val >>> 6 = 1 then s1.r + 1 else s1.r, s1.wrsz, s1.d⟩ := by
  have h : r < src.length := by
    rcases List.getElem?_eq_some.mp hb with ⟨h, _⟩
    exact h
  simp only [unrleLoop, h, if_true]
  rw [hb]
  simp only [hl, if_false]
  rw [hf]

theorem unrleLoop_ret {c : Nat} {src : List Byte} {n r w : Nat} {d : List Byte} {b : Byte}
    {v : Int} {d1 : List Byte} (hb : src[r]? = some b) (hl : b.val &&& 0x3F ≠ 0)
    (hf : unrleFor c src (b.val >>> 6) (b.val &&& 0x3F) ⟨r + 1, w, d⟩ = .ret v d1) :
    unrleLoop c src (n + 1) ⟨r, w, d⟩ = .ret (v, d1) := by
  have h : r < src.length := by
    rcases List.getElem?_eq_some.mp hb with ⟨h, _⟩
    exact h
  simp only [unrleLoop, h, if_true]
  rw [hb]
  simp only [hl, if_false]
  rw [hf]

theorem unrleLoop_sim {cA cB m : Nat} (src : List Byte) (hmA : m ≤ cA) (hmB : m ≤ cB) :
    ∀ (n r w : Nat) (dA dB : List Byte), cA ≤ dA.length → cB ≤ dB.length →
      r ≤ src.length → src.length < r + n → w < 2 ^ 64 → Agree m w dA dB →
      RunSim cA cB m dA dB
        (unrleLoop cA src n ⟨r, w, dA⟩) (unrleLoop cB src n ⟨r, w, dB⟩) := by
  intro n
  induction n with
  | zero =>
    intro r w dA dB _ _ hr hn
    omega
  | succ n ih =>
    intro r w dA dB hA hB hr hn hw hag
    by_cases hlt : r < src.length
    · have hb : src[r]? = some src[r] := List.getElem?_eq_getElem hlt
      by_cases hl : (src[r]).val &&& 0x3F = 0
      · rw [unrleLoop_bad hb hl, unrleLoop_bad hb hl]
        exact ⟨-2, dA, dB, rfl, rfl, Frame.refl _ _, Frame.refl _ _, Or.inl (Or.inr rfl)⟩
      · have hsim := unrleFor_sim src ((src[r]).val >>> 6) hmA hmB ((src[r]).val &&& 0x3F)
          (r + 1) w dA dB hA hB hlt hw hag
        rcases hsim with ⟨r1, w1, dA1, dB1, h1, h2, h3, h4, _, h6, h7, h8, h9, h10⟩ |
            ⟨dA1, dB1, h1, h2, h3, h4⟩
        · rw [unrleLoop_next hb hl h1, unrleLoop_next hb hl h2]
          have hr1 : (if (src[r]).val >>> 6 = 1 then r1 + 1 else r1) ≤ src.length := by
            split
            · next ht =>
              have := h6 ht (Nat.pos_of_ne_zero hl)
              omega
            · exact h4
          have hn1 : src.length < (if (src[r]).val >>> 6 = 1 then r1 + 1 else r1) + n := by
            split <;> omega
          have hrec := ih (if (src[r]).val >>> 6 = 1 then r1 + 1 else r1) w1 dA1 dB1
            (by rw [h8.1]; exact hA) (by rw [h9.1]; exact hB) hr1 hn1 h7 h10
          rcases hrec with ⟨v, dA2, dB2, e1, e2, f1, f2, hv⟩
          exact ⟨v, dA2, dB2, e1, e2, h8.trans f1, h9.trans f2, hv⟩
        · rw [unrleLoop_ret hb hl h1, unrleLoop_ret hb hl h2]
          exact ⟨-1, dA1, dB1, rfl, rfl, h3, h4, Or.inl (Or.inl rfl)⟩
    · rw [unrleLoop_end hlt, unrleLoop_end hlt]
      exact ⟨toSsize w, dA, dB, rfl, rfl, Frame.refl _ _, Frame.refl _ _,
        Or.inr ⟨w, hw, rfl, hag⟩⟩

/-- Any two calls of `unrle` on the same input, each with a capacity that its
destination memory can hold, are related by `RunSim`. -/
theorem unrle_sim (src dA dB : List Byte) (cA cB : Nat)
    (hA : cA ≤ dA.length) (hB : cB ≤ dB.length) :
    RunSim cA cB (min cA cB) dA dB (unrle dA cA src) (unrle dB cB src) :=
  unrleLoop_sim src (Nat.min_le_left _ _) (Nat.min_le_right _ _) (src.length + 1) 0 0 dA dB
    hA hB (Nat.zero_le _) (by omega) (by norm_num) (fun _ _ h => absurd h (Nat.not_lt_zero _))

theorem toSsize_eq_natCast {w n : Nat} (hw : w < 2 ^ 64) (h : (n : Int) = toSsize w) : w = n := by
  unfold toSsize at h
  split at h <;> omega

/-- The probe run and a run with any capacity return the same value. -/
theorem unrle_probe_agree (src dst : List Byte) (c : Nat) (hc : c ≤ dst.length) :
    ∃ v d1, unrle [] 0 src = .ret (v, []) ∧ unrle dst c src = .ret (v, d1) := by
  rcases unrle_sim src [] dst 0 c (Nat.le_refl _) hc with ⟨v, dA1, dB1, e1, e2, f1, _, _⟩
  have : dA1 = [] := List.length_eq_zero.mp f1.1
  subst this
  exact ⟨v, dB1, e1, e2⟩

/-- C4: size-probe mode agrees with a full run. For every input, `unrle` with a
null destination and capacity 0 returns a value, and `unrle` on the same input
with any capacity `c` (backed by a destination of at least `c` bytes) returns
that same value: the byte count or error code does not depend on the
capacity. -/
theorem unrle_probe_eq_any_capacity (src dst : List Byte) (c : Nat) (hc : c ≤ dst.length) :
    ∃ v d1, unrle [] 0 src = .ret (v, []) ∧ unrle dst c src = .ret (v, d1) :=
  unrle_probe_agree src dst c hc

theorem unrle_probe_eq_any_capacity_witness :
    ∃ v d1, unrle [] 0 [0x05, 78, 86, 117, 99, 63, 0x83] = .ret (v, []) ∧
      unrle [1, 2, 3, 4, 5, 6, 7, 8, 9] 8 [0x05, 78, 86, 117, 99, 63, 0x83] = .ret (v, d1) :=
  unrle_probe_eq_any_capacity _ _ 8 (by decide)

/-- C5: writes beyond capacity are not materialized but still counted. If the
input decodes successfully to `n` bytes (a run with a capacity `cF ≥ n` returns
`n`, leaving the full output in the first `n` bytes of `outF`), then for every
capacity `c` the call returns `n`, the first `min c n` bytes of the destination
equal the first `min c n` bytes of the full output, and the destination keeps
its size and its contents at every index `≥ c`. -/
theorem unrle_capacity_truncates (src dstF outF dst : List Byte) (n cF c : Nat)
    (hn : n ≤ cF) (hF : cF ≤ dstF.length) (hc : c ≤ dst.length)
    (hfull : unrle dstF cF src = .ret ((n : Int), outF)) :
    ∃ d1, unrle dst c src = .ret ((n : Int), d1) ∧
      d1.take (min c n) = outF.take (min c n) ∧
      d1.length = dst.length ∧ ∀ i, c ≤ i → d1[i]? = dst[i]? := by
  rcases unrle_sim src dstF dst cF c hF hc with ⟨v, dA1, dB1, e1, e2, _, f2, hv⟩
  rw [hfull] at e1
  injection e1 with e1
  injection e1 with ev ed
  subst ed
  subst ev
  rcases hv with (hv | hv) | ⟨w1, hw1, hv, hag⟩
  · omega
  · omega
  · have hwn : w1 = n := toSsize_eq_natCast hw1 hv
    subst hwn
    refine ⟨dB1, e2, ?_, f2.1, f2.2⟩
    apply List.ext_getElem?
    intro i
    rw [List.getElem?_take, List.getElem?_take]
    split
    · next hi =>
      exact (hag i (by omega) (by omega)).symm
    · rfl

theorem unrle_capacity_truncates_witness :
    ∃ d1, unrle [1, 2, 3] 2 [0x05, 78, 86, 117, 99, 63] = .ret (((5 : Nat) : Int), d1) ∧
      d1.take (min 2 5) = [78, 86, 117, 99, 63, 0].take (min 2 5) ∧
      d1.length = [1, 2, 3].length ∧ ∀ i, 2 ≤ i → d1[i]? = ([1, 2, 3] : List Byte)[i]? :=
  unrle_capacity_truncates [0x05, 78, 86, 117, 99, 63] [0, 0, 0, 0, 0, 0] [78, 86, 117, 99, 63, 0]
    [1, 2, 3] 5 5 2 (by decide) (by decide) (by decide) (by decide)

theorem rleStore_zero (src : List Byte) (t : Nat) (s : RleState) :
    rleStore 0 src t s = some s.d := by
  simp [rleStore]

theorem unrleFor_zero_succ (src : List Byte) (t k r w : Nat) (d : List Byte) :
    unrleFor 0 src t (k + 1) ⟨r, w, d⟩ =
      if t < 2 ∧ r = src.length then .ret (-1) d
      else unrleFor 0 src t k ⟨if t = 0 then r + 1 else r, (w + 1) % 2 ^ 64, d⟩ := by
  simp only [unrleFor, rleStore_zero]

/-- A probe run of the inner loop that falls through on input `p` falls through
in the same state on every extension `p ++ q`. -/
theorem unrleFor_probe_append (p q : List Byte) (t : Nat) :
    ∀ (k r w : Nat) (s1 : RleState), r ≤ p.length →
      unrleFor 0 p t k ⟨r, w, []⟩ = .next s1 →
      unrleFor 0 (p ++ q) t k ⟨r, w, []⟩ = .next s1 ∧ s1.r ≤ p.length ∧ s1.d = [] ∧
        (t = 1 → 0 < k → s1.r < p.length) := by
  intro k
  induction k with
  | zero =>
    intro r w s1 hr h
    simp only [unrleFor] at h ⊢
    injection h with h
    subst h
    exact ⟨rfl, hr, rfl, fun _ h => absurd h (lt_irrefl 0)⟩
  | succ k ih =>
    intro r w s1 hr h
    rw [unrleFor_zero_succ] at h ⊢
    by_cases hchk : t < 2 ∧ r = p.length
    · simp [hchk] at h
    · simp only [hchk, if_false] at h
      have hv : t < 2 → r < p.length := by
        intro ht
        have : r ≠ p.length := fun h => hchk ⟨ht, h⟩
        omega
      have hchk2 : ¬ (t < 2 ∧ r = (p ++ q).length) := by
        rintro ⟨ht, he⟩
        have := hv ht
        simp at he
        omega
      simp only [hchk2, if_false]
      have hr1 : (if t = 0 then r + 1 else r) ≤ p.length := by
        split
        · have := hv (by omega)
          omega
        · exact hr
      rcases ih _ _ s1 hr1 h with ⟨e, h1, h2, h3⟩
      refine ⟨e, h1, h2, ?_⟩
      intro ht _
      have hne : t ≠ 0 := by omega
      have hlt := hv (by omega)
      rcases Nat.eq_zero_or_pos k with hk | hk
      · subst hk
        simp only [unrleFor, hne, if_false] at h
        injection h with h
        subst h
        exact hlt
      · exact h3 ht hk

theorem unrleFor_ret_eq (c : Nat) (src : List Byte) (t : Nat) :
    ∀ (k : Nat) (s : RleState) (v : Int) (d : List Byte),
      unrleFor c src t k s = .ret v d → v = -1 := by
  intro k
  induction k with
  | zero =>
    intro s v d h
    simp [unrleFor] at h
  | succ k ih =>
    intro s v d h
    simp only [unrleFor] at h
    split at h
    · injection h with h1 _
      exact h1.symm
    · split at h
      · cases h
      · exact ih _ v d h

theorem unrleLoop_oob {c : Nat} {src : List Byte} {n r w : Nat} {d : List Byte} {b : Byte}
    (hb : src[r]? = some b) (hl : b.val &&& 0x3F ≠ 0)
    (hf : unrleFor c src (b.val >>> 6) (b.val &&& 0x3F) ⟨r + 1, w, d⟩ = .oob) :
    unrleLoop c src (n + 1) ⟨r, w, d⟩ = .oob := by
  have h : r < src.length := by
    rcases List.getElem?_eq_some.mp hb with ⟨h, _⟩
    exact h
  simp only [unrleLoop, h, if_true]
  rw [hb]
  simp only [hl, if_false]
  rw [hf]

/-- A probe run that decodes `p` successfully reaches, on every extension
`p ++ q`, the head of the `while` loop with the read pointer at the end of `p`
and at least one unit of fuel per byte of `q` left. -/
theorem unrleLoop_probe_append (p : List Byte) :
    ∀ (n r w : Nat) (v : Int) (d : List Byte), r ≤ p.length →
      unrleLoop 0 p n ⟨r, w, []⟩ = .ret (v, d) → 0 ≤ v →
      ∃ w1 j, 1 ≤ j ∧ v = toSsize w1 ∧ ∀ (q : List Byte) (k : Nat),
        unrleLoop 0 (p ++ q) (n + k) ⟨r, w, []⟩ =
          unrleLoop 0 (p ++ q) (j + k) ⟨p.length, w1, []⟩ := by
  intro n
  induction n with
  | zero =>
    intro r w v d _ h
    simp [unrleLoop] at h
  | succ n ih =>
    intro r w v d hr h hv
    by_cases hlt : r < p.length
    · have hb : p[r]? = some p[r] := List.getElem?_eq_getElem hlt
      by_cases hl : (p[r]).val &&& 0x3F = 0
      · rw [unrleLoop_bad hb hl] at h
        injection h with h
        injection h with h
        omega
      · cases hf : unrleFor 0 p ((p[r]).val >>> 6) ((p[r]).val &&& 0x3F) ⟨r + 1, w, []⟩ with
        | next s1 =>
          rw [unrleLoop_next hb hl hf] at h
          rcases unrleFor_probe_append p [] _ _ _ _ s1 hlt hf with ⟨_, h1, h2, h3⟩
          have hr1 : (if (p[r]).val >>> 6 = 1 then s1.r + 1 else s1.r) ≤ p.length := by
            split
            · next ht =>
              have := h3 ht (Nat.pos_of_ne_zero hl)
              omega
            · exact h1
          rw [h2] at h
          rcases ih _ _ v d hr1 h hv with ⟨w1, j, hj, hw1, hq⟩
          refine ⟨w1, j, hj, hw1, fun q k => ?_⟩
          have hbq : (p ++ q)[r]? = some p[r] := by
            rw [List.getElem?_append_left hlt]
            exact hb
          have hfq := (unrleFor_probe_append p q _ _ _ _ s1 hlt hf).1
          have e : n + 1 + k = (n + k) + 1 := by omega
          rw [e, unrleLoop_next hbq hl hfq, h2]
          exact hq q k
        | ret v1 d1 =>
          rw [unrleLoop_ret hb hl hf] at h
          have hv1 := unrleFor_ret_eq _ _ _ _ _ _ _ hf
          injection h with h
          injection h with h
          omega
        | oob =>
          rw [unrleLoop_oob hb hl hf] at h
          cases h
    · rw [unrleLoop_end hlt] at h
      injection h with h
      injection h with h1 _
      have hrp : r = p.length := by omega
      subst hrp
      exact ⟨w, n + 1, by omega, h1.symm, fun _ _ => rfl⟩

/-- The probe run on `p ++ q`, for `p` a stream that decodes successfully,
continues from the end of `p` with fuel left. -/
theorem unrle_probe_append (p q d : List Byte) (v : Int) (hp : unrle [] 0 p = .ret (v, d))
    (hv : 0 ≤ v) :
    ∃ w1 j, unrle [] 0 (p ++ q) = unrleLoop 0 (p ++ q) (j + 1) ⟨p.length, w1, []⟩ := by
  rcases unrleLoop_probe_append p (p.length + 1) 0 0 v d (Nat.zero_le _) hp hv with
    ⟨w1, j, hj, _, hq⟩
  refine ⟨w1, j - 1 + q.length, ?_⟩
  have e1 : (p ++ q).length + 1 = p.length + 1 + q.length := by
    simp only [List.length_append]
    omega
  have e2 : j - 1 + q.length + 1 = j + q.length := by omega
  unfold unrle
  rw [e1, e2]
  exact hq q q.length

theorem getElem?_append_cons_length (p : List Byte) (b : Byte) (s : List Byte) :
    (p ++ b :: s)[p.length]? = some b := by
  rw [List.getElem?_append_right (Nat.le_refl _)]
  simp

/-- C2: a record with length field 0 always fails with `InvalidEncoding`. For
every input `p ++ [b] ++ s` where `p` is a stream that `unrle` decodes
successfully (some call on `p` returns a non-negative value), `b` is one of the
control bytes `0x00`, `0x40`, `0x80`, `0xC0` and `s` is arbitrary, and for every
capacity, `unrle` returns `-2`, which `unrle_geterror` renders as
"not Nv RLE". -/
theorem unrle_zero_length_invalid (p s dP outP dst : List Byte) (cP c : Nat) (v : Int) (b : Byte)
    (hcP : cP ≤ dP.length) (hp : unrle dP cP p = .ret (v, outP)) (hv : 0 ≤ v)
    (hb : b ∈ [(0x00 : Byte), 0x40, 0x80, 0xC0]) (hc : c ≤ dst.length) :
    ∃ d1, unrle dst c (p ++ [b] ++ s) = .ret (-2, d1) ∧
      unrle_geterror (-2) = "not Nv RLE" := by
  rcases unrle_probe_agree p dP cP hcP with ⟨v0, _, hp0, hp1⟩
  rw [hp] at hp1
  injection hp1 with hp1
  injection hp1 with hv0 _
  subst hv0
  rcases unrle_probe_append p (b :: s) [] v hp0 hv with ⟨w1, j, hrun⟩
  have hl : b.val &&& 0x3F = 0 := by
    simp only [List.mem_cons, List.mem_singleton, List.not_mem_nil, or_false] at hb
    rcases hb with h | h | h | h <;> subst h <;> decide
  rw [unrleLoop_bad (getElem?_append_cons_length p b s) hl] at hrun
  rcases unrle_probe_agree (p ++ b :: s) dst c hc with ⟨v2, d1, h0, h1⟩
  rw [hrun] at h0
  injection h0 with h0
  injection h0 with hv2 _
  subst hv2
  refine ⟨d1, ?_, by decide⟩
  simpa using h1

theorem unrle_zero_length_invalid_witness :
    ∃ d1, unrle [0, 0, 0] 3 ([0x41, 0x7F] ++ [0x40] ++ [1, 2]) = .ret (-2, d1) ∧
      unrle_geterror (-2) = "not Nv RLE" :=
  unrle_zero_length_invalid [0x41, 0x7F] [1, 2] [] [] [0, 0, 0] 0 3 1 0x40
    (by decide) (by decide) (by decide) (by decide) (by decide)

theorem ctrlByte_len {op len : Nat} (hop : op < 4) (hlen : len < 64) :
    (ctrlByte op len).val &&& 0x3F = len := by
  have h : (ctrlByte op len).val = op * 64 + len := by
    simp only [ctrlByte]
    omega
  rw [h]
  have e : (0x3F : Nat) = 2 ^ 6 - 1 := by norm_num
  rw [e, Nat.and_pow_two_sub_one_eq_mod]
  omega

theorem ctrlByte_op {op len : Nat} (hop : op < 4) (hlen : len < 64) :
    (ctrlByte op len).val >>> 6 = op := by
  have h : (ctrlByte op len).val = op * 64 + len := by
    simp only [ctrlByte]
    omega
  rw [h, Nat.shiftRight_eq_div_pow]
  omega

/-- A copy record whose data runs past the end of the input makes the probe run
of the inner loop return `-1`. -/
theorem unrleFor_copy_truncated (src : List Byte) :
    ∀ (k r w : Nat), r ≤ src.length → src.length - r < k →
      unrleFor 0 src 0 k ⟨r, w, []⟩ = .ret (-1) [] := by
  intro k
  induction k with
  | zero =>
    intro r w _ h
    omega
  | succ k ih =>
    intro r w hr h
    rw [unrleFor_zero_succ]
    by_cases he : r = src.length
    · simp [he]
    · have : ¬ ((0 : Nat) < 2 ∧ r = src.length) := fun h => he h.2
      simp only [this, if_false, if_true]
      exact ih (r + 1) _ (by omega) (by omega)

/-- C3: a copy or fill-from-input record whose required input bytes are missing
always fails with `TruncatedInput`. For every input `p ++ [c] ++ d` where `p`
is a stream that `unrle` decodes successfully, `c` is the control byte of
operation `op` and length `len` in 1..63, and either `op = 0` with `d` shorter
than `len`, or `op = 1` with `d` empty, and for every capacity, `unrle` returns
`-1`, which `unrle_geterror` renders as "truncated input". -/
theorem unrle_missing_input_truncated (p d dP outP dst : List Byte) (cP c op len : Nat) (v : Int)
    (hcP : cP ≤ dP.length) (hp : unrle dP cP p = .ret (v, outP)) (hv : 0 ≤ v)
    (hlen1 : 1 ≤ len) (hlen2 : len ≤ 63)
    (hd : (op = 0 ∧ d.length < len) ∨ (op = 1 ∧ d = [])) (hc : c ≤ dst.length) :
    ∃ d1, unrle dst c (p ++ [ctrlByte op len] ++ d) = .ret (-1, d1) ∧
      unrle_geterror (-1) = "truncated input" := by
  rcases unrle_probe_agree p dP cP hcP with ⟨v0, _, hp0, hp1⟩
  rw [hp] at hp1
  injection hp1 with hp1
  injection hp1 with hv0 _
  subst hv0
  rcases unrle_probe_append p (ctrlByte op len :: d) [] v hp0 hv with ⟨w1, j, hrun⟩
  have hop : op < 4 := by
    rcases hd with ⟨h, _⟩ | ⟨h, _⟩ <;> omega
  have hl : (ctrlByte op len).val &&& 0x3F = len := ctrlByte_len hop (by omega)
  have ht : (ctrlByte op len).val >>> 6 = op := ctrlByte_op hop (by omega)
  have hl0 : (ctrlByte op len).val &&& 0x3F ≠ 0 := by omega
  have hsl : (p ++ ctrlByte op len :: d).length = p.length + 1 + d.length := by
    simp only [List.length_append, List.length_cons]
    omega
  have hf : unrleFor 0 (p ++ ctrlByte op len :: d) ((ctrlByte op len).val >>> 6)
      ((ctrlByte op len).val &&& 0x3F) ⟨p.length + 1, w1, []⟩ = .ret (-1) [] := by
    rw [hl, ht]
    rcases hd with ⟨h0, hdl⟩ | ⟨h1, hdl⟩
    · subst h0
      exact unrleFor_copy_truncated _ _ _ _ (by omega) (by omega)
    · subst h1
      subst hdl
      obtain ⟨k, rfl⟩ : ∃ k, len = k + 1 := ⟨len - 1, by omega⟩
      rw [unrleFor_zero_succ]
      simp
  rw [unrleLoop_ret (getElem?_append_cons_length p _ d) hl0 hf] at hrun
  rcases unrle_probe_agree (p ++ ctrlByte op len :: d) dst c hc with ⟨v2, d1, h0, h1⟩
  rw [hrun] at h0
  injection h0 with h0
  injection h0 with hv2 _
  subst hv2
  refine ⟨d1, ?_, by decide⟩
  simpa using h1

theorem unrle_missing_input_truncated_witness :
    ∃ d1, unrle [0, 0, 0, 0] 4 ([0x83] ++ [ctrlByte 0 3] ++ [7, 8]) = .ret (-1, d1) ∧
      unrle_geterror (-1) = "truncated input" :=
  unrle_missing_input_truncated [0x83] [7, 8] [] [] [0, 0, 0, 0] 0 4 0 3 3
    (by decide) (by decide) (by decide) (by decide) (by decide) (by decide) (by decide)

theorem Record.op_lt (x : Record) : x.op < 4 := by
  cases x <;> simp [Record.op]

theorem Record.length_expand (x : Record) : x.expand.length = x.len := by
  cases x <;> simp [Record.expand, Record.len]

theorem set_at_length (out dst : List Byte) (v : Byte) (h : out.length < dst.length) :
    (out ++ dst.drop out.length).set out.length v =
      (out ++ [v]) ++ dst.drop (out.length + 1) := by
  rw [List.set_append_right _ _ (Nat.le_refl _), Nat.sub_self,
    List.drop_eq_getElem_cons h, List.set_cons_zero]
  simp

theorem rleStore_at_length {cap : Nat} {src : List Byte} {t r : Nat} {out dst : List Byte}
    {v : Byte} (hv : rleValue src t r = some v) (hout : out.length < cap)
    (hcap : cap ≤ dst.length) :
    rleStore cap src t ⟨r, out.length, out ++ dst.drop out.length⟩ =
      some ((out ++ [v]) ++ dst.drop (out.length + 1)) := by
  have hlen : cap ≤ (out ++ dst.drop out.length).length := by
    simp only [List.length_append, List.length_drop]
    omega
  rw [rleStore_eq hlen hv]
  simp only [hout, if_true]
  rw [set_at_length out dst v (by omega)]

/-- The inner loop on a copy record whose data is present: the data bytes are
appended to the output and the read pointer moves behind them. -/
theorem unrleFor_copy {cap : Nat} {src dst : List Byte} (hcap : cap ≤ dst.length) :
    ∀ (data pre post out : List Byte), src = pre ++ data ++ post →
      out.length + data.length ≤ cap → out.length + data.length < 2 ^ 64 →
      unrleFor cap src 0 data.length ⟨pre.length, out.length, out ++ dst.drop out.length⟩ =
        .next ⟨pre.length + data.length, out.length + data.length,
          (out ++ data) ++ dst.drop (out.length + data.length)⟩ := by
  intro data
  induction data with
  | nil =>
    intro pre post out _ _ _
    simp [unrleFor]
  | cons x xs ih =>
    intro pre post out hsrc h1 h2
    simp only [List.length_cons] at h1 h2
    have hv : rleValue src 0 pre.length = some x := by
      have e : src = pre ++ x :: (xs ++ post) := by simp [hsrc]
      simp only [rleValue, e, getElem?_append_cons_length]
      simp
    have hchk : ¬ ((0 : Nat) < 2 ∧ pre.length = src.length) := by
      rw [hsrc]
      simp only [List.length_append, List.length_cons]
      omega
    have hmod : (out.length + 1) % 2 ^ 64 = out.length + 1 := Nat.mod_eq_of_lt (by omega)
    have hstep := ih (pre ++ [x]) post (out ++ [x]) (by simp [hsrc])
      (by simp only [List.length_append, List.length_singleton]; omega)
      (by simp only [List.length_append, List.length_singleton]; omega)
    simp only [List.length_append, List.length_singleton] at hstep
    simp only [List.length_cons, unrleFor, hchk, if_false,
      rleStore_at_length hv (show out.length < cap by omega) hcap, if_true, hmod]
    rw [hstep]
    simp [Nat.add_assoc, Nat.add_comm 1]

/-- The inner loop on a fill record (operations 1, 2, 3) whose value `v` is
available: `k` copies of `v` are appended to the output and the read pointer
does not move. -/
theorem unrleFor_fill {cap : Nat} {src dst : List Byte} {t r : Nat} {v : Byte}
    (hcap : cap ≤ dst.length) (ht : t ≠ 0) (hv : rleValue src t r = some v)
    (hchk : ¬ (t < 2 ∧ r = src.length)) :
    ∀ (k : Nat) (out : List Byte), out.length + k ≤ cap → out.length + k < 2 ^ 64 →
      unrleFor cap src t k ⟨r, out.length, out ++ dst.drop out.length⟩ =
        .next ⟨r, out.length + k,
          (out ++ List.replicate k v) ++ dst.drop (out.length + k)⟩ := by
  intro k
  induction k with
  | zero =>
    intro out _ _
    simp [unrleFor]
  | succ k ih =>
    intro out h1 h2
    have hmod : (out.length + 1) % 2 ^ 64 = out.length + 1 := Nat.mod_eq_of_lt (by omega)
    have hstep := ih (out ++ [v])
      (by simp only [List.length_append, List.length_singleton]; omega)
      (by simp only [List.length_append, List.length_singleton]; omega)
    simp only [List.length_append, List.length_singleton] at hstep
    simp only [unrleFor, hchk, if_false,
      rleStore_at_length hv (show out.length < cap by omega) hcap, ht, hmod]
    rw [hstep]
    simp [Nat.add_assoc, Nat.add_comm 1, List.replicate_succ]

/-- One iteration of the `while` loop on a well-formed record: the expansion of
the record is appended to the output. -/
theorem unrleLoop_record {cap : Nat} {src dst : List Byte} (hcap : cap ≤ dst.length)
    (x : Record) (pre post out : List Byte) (n : Nat) (hx : 1 ≤ x.len ∧ x.len ≤ 63)
    (hsrc : src = pre ++ x.encode ++ post) (h1 : out.length + x.len ≤ cap)
    (h2 : out.length + x.len < 2 ^ 64) :
    unrleLoop cap src (n + 1) ⟨pre.length, out.length, out ++ dst.drop out.length⟩ =
      unrleLoop cap src n ⟨pre.length + x.encode.length, out.length + x.len,
        (out ++ x.expand) ++ dst.drop (out.length + x.len)⟩ := by
  have hsrc1 : src = pre ++ ctrlByte x.op x.len :: (x.payload ++ post) := by
    simp [hsrc, Record.encode]
  have hb : src[pre.length]? = some (ctrlByte x.op x.len) := by
    rw [hsrc1]
    exact getElem?_append_cons_length _ _ _
  have hl : (ctrlByte x.op x.len).val &&& 0x3F = x.len := ctrlByte_len x.op_lt (by omega)
  have ht : (ctrlByte x.op x.len).val >>> 6 = x.op := ctrlByte_op x.op_lt (by omega)
  have hl0 : (ctrlByte x.op x.len).val &&& 0x3F ≠ 0 := by omega
  have hpre : (pre ++ [ctrlByte x.op x.len]).length = pre.length + 1 := by simp
  have hsrc2 : src = (pre ++ [ctrlByte x.op x.len]) ++ x.payload ++ post := by
    simp [hsrc1]
  have hf : unrleFor cap src ((ctrlByte x.op x.len).val >>> 6)
      ((ctrlByte x.op x.len).val &&& 0x3F) ⟨pre.length + 1, out.length,
        out ++ dst.drop out.length⟩ =
      .next ⟨if x.op = 0 then pre.length + 1 + x.len else pre.length + 1, out.length + x.len,
        (out ++ x.expand) ++ dst.drop (out.length + x.len)⟩ := by
    rw [hl, ht]
    cases x with
    | copy data =>
      have := unrleFor_copy hcap data (pre ++ [ctrlByte 0 data.length]) post out hsrc2 h1 h2
      simp only [List.length_append, List.length_singleton] at this
      simpa [Record.op, Record.len, Record.expand] using this
    | fill len b =>
      have hsl : src.length = pre.length + 2 + post.length := by
        rw [hsrc1]
        simp [Record.payload]
        omega
      have hv : rleValue src 1 (pre.length + 1) = some b := by
        have e : src = (pre ++ [ctrlByte 1 len]) ++ b :: post := by
          simp [hsrc1, Record.payload, Record.op, Record.len]
        have := getElem?_append_cons_length (pre ++ [ctrlByte 1 len]) b post
        simp only [List.length_append, List.length_singleton] at this
        rw [← e] at this
        simp only [rleValue]
        simpa using this
      have := unrleFor_fill hcap (by norm_num) hv (by omega) len out h1 h2
      simpa [Record.op, Record.len, Record.expand] using this
    | fillFF len =>
      have hv : rleValue src 2 (pre.length + 1) = some 0xFF := by simp [rleValue]
      have := unrleFor_fill hcap (by norm_num) hv (by omega) len out h1 h2
      simpa [Record.op, Record.len, Record.expand] using this
    | fill00 len =>
      have hv : rleValue src 3 (pre.length + 1) = some 0 := by simp [rleValue]
      have := unrleFor_fill hcap (by norm_num) hv (by omega) len out h1 h2
      simpa [Record.op, Record.len, Record.expand] using this
  rw [unrleLoop_next hb hl0 hf, ht]
  congr 2
  cases x <;> simp [Record.op, Record.len, Record.encode, Record.payload]
  all_goals omega

theorem length_le_encodeAll (recs : List Record) : recs.length ≤ (encodeAll recs).length := by
  induction recs with
  | nil => simp [encodeAll]
  | cons x xs ih =>
    simp only [encodeAll, List.length_cons, List.length_append, Record.encode]
    omega

/-- The `while` loop on a sequence of well-formed records: one iteration per
record, the reference expansion is appended to the output. -/
theorem unrleLoop_records {cap : Nat} {src dst : List Byte} (hcap : cap ≤ dst.length) (n : Nat) :
    ∀ (recs : List Record) (pre post out : List Byte), WellFormed recs →
      src = pre ++ encodeAll recs ++ post →
      out.length + (expandAll recs).length ≤ cap →
      out.length + (expandAll recs).length < 2 ^ 64 →
      unrleLoop cap src (n + recs.length) ⟨pre.length, out.length, out ++ dst.drop out.length⟩ =
        unrleLoop cap src n ⟨pre.length + (encodeAll recs).length,
          out.length + (expandAll recs).length,
          (out ++ expandAll recs) ++ dst.drop (out.length + (expandAll recs).length)⟩ := by
  intro recs
  induction recs with
  | nil =>
    intro pre post out _ _ _ _
    simp [encodeAll, expandAll]
  | cons x xs ih =>
    intro pre post out hwf hsrc h1 h2
    simp only [expandAll, List.length_append, Record.length_expand] at h1 h2
    have hx := hwf x (List.mem_cons_self _ _)
    have hxs : WellFormed xs := fun y hy => hwf y (List.mem_cons_of_mem _ hy)
    have hsrcx : src = pre ++ x.encode ++ (encodeAll xs ++ post) := by
      simp [hsrc, encodeAll]
    have e : n + (x :: xs).length = (n + xs.length) + 1 := by
      simp only [List.length_cons]
      omega
    rw [e, unrleLoop_record hcap x pre (encodeAll xs ++ post) out (n + xs.length) hx hsrcx
      (by omega) (by omega)]
    have hstep := ih (pre ++ x.encode) post (out ++ x.expand) hxs
      (by simp [hsrc, encodeAll])
      (by simp only [List.length_append, Record.length_expand]; omega)
      (by simp only [List.length_append, Record.length_expand]; omega)
    simp only [List.length_append, Record.length_expand] at hstep
    rw [hstep]
    simp only [encodeAll, expandAll, List.length_append, Record.length_expand,
      List.append_assoc, Nat.add_assoc]

/-- C1: `unrle` equals the reference record-by-record decoder. For every
sequence of well-formed records (run length in 1..63), `unrle` on the
concatenated encoding, with an output capacity at least the total output length
(a length `ssize_t` can represent), returns that total length and leaves in the
destination exactly the concatenation of the per-record expansions, followed by
the untouched rest of the destination. The three vectors of the specification
are instances: `05 N V u c ?` decodes to those five bytes, `41 7F` to `7F`,
`83` to `FF FF FF`. -/
theorem unrle_eq_reference (recs : List Record) (dst : List Byte) (cap : Nat)
    (hwf : WellFormed recs) (hfit : (expandAll recs).length ≤ cap) (hcap : cap ≤ dst.length)
    (hrep : (expandAll recs).length < 2 ^ 63) :
    unrle dst cap (encodeAll recs) =
        .ret (((expandAll recs).length : Int),
          expandAll recs ++ dst.drop (expandAll recs).length) ∧
      unrle [0, 0, 0, 0, 0] 5 [0x05, 78, 86, 117, 99, 63] = .ret (5, [78, 86, 117, 99, 63]) ∧
      unrle [0] 1 [0x41, 0x7F] = .ret (1, [0x7F]) ∧
      unrle [0, 0, 0] 3 [0x83] = .ret (3, [0xFF, 0xFF, 0xFF]) := by
  refine ⟨?_, by decide, by decide, by decide⟩
  have hlen := length_le_encodeAll recs
  have hrun : unrleLoop cap (encodeAll recs) _ _ = _ :=
    unrleLoop_records hcap ((encodeAll recs).length + 1 - recs.length) recs [] [] []
      hwf (by simp) (by simpa using hfit) (by simp only [List.length_nil, Nat.zero_add]; omega)
  have e : (encodeAll recs).length + 1 - recs.length + recs.length =
      (encodeAll recs).length + 1 := by omega
  obtain ⟨k, hk⟩ : ∃ k, (encodeAll recs).length + 1 - recs.length = k + 1 :=
    ⟨(encodeAll recs).length - recs.length, by omega⟩
  rw [e] at hrun
  simp only [List.length_nil, Nat.zero_add, List.nil_append, List.drop_zero] at hrun
  unfold unrle
  rw [hrun, hk, unrleLoop_end (Nat.lt_irrefl _)]
  have : toSsize (expandAll recs).length = ((expandAll recs).length : Int) := by
    unfold toSsize
    rw [if_pos hrep]
  rw [this]

theorem unrle_eq_reference_witness :
    unrle [9, 9, 9, 9, 9, 9, 9, 9] 7
        (encodeAll [.copy [78, 86], .fill 2 0x7F, .fillFF 1, .fill00 2]) =
        .ret (((expandAll [.copy [78, 86], .fill 2 0x7F, .fillFF 1, .fill00 2]).length : Int),
          expandAll [.copy [78, 86], .fill 2 0x7F, .fillFF 1, .fill00 2] ++
            ([9, 9, 9, 9, 9, 9, 9, 9] : List Byte).drop
              (expandAll [.copy [78, 86], .fill 2 0x7F, .fillFF 1, .fill00 2]).length) ∧
      unrle [0, 0, 0, 0, 0] 5 [0x05, 78, 86, 117, 99, 63] = .ret (5, [78, 86, 117, 99, 63]) ∧
      unrle [0] 1 [0x41, 0x7F] = .ret (1, [0x7F]) ∧
      unrle [0, 0, 0] 3 [0x83] = .ret (3, [0xFF, 0xFF, 0xFF]) :=
  unrle_eq_reference [.copy [78, 86], .fill 2 0x7F, .fillFF 1, .fill00 2]
    [9, 9, 9, 9, 9, 9, 9, 9] 7 (by decide) (by decide) (by decide) (by decide)

/-- C6 (fails on the code): the range check adds the two 32-bit fields in
`uint32_t`, so the sum wraps. For the blob of 36 bytes below (one section header
with the right magic declaring section size `0xFFFFFFE0`) and the index entry
with offset 0 and that size, the mathematical range end `0 + 36 + (s - 4)` is
`2^32 > 36`, yet the entry passes the range check (the wrapped sum is 0), its
header is accepted, and the walker goes on to read the payload outside the
blob instead of ending the run with status 1. -/
theorem range_check_wraps (env : Env) :
    (0 : Nat) + 36 + (0xFFFFFFE0 - 4) >
        ([0x9D, 0xA1, 0x46, 0x98, 0, 0, 0, 0, 0, 0, 0, 0, 0, 0, 0, 0, 0, 0, 0, 0, 0, 0, 0, 0,
          0, 0, 0, 0, 0xE0, 0xFF, 0xFF, 0xFF, 0, 0, 0, 0] : List Byte).length ∧
      processEntry env
        [0x9D, 0xA1, 0x46, 0x98, 0, 0, 0, 0, 0, 0, 0, 0, 0, 0, 0, 0, 0, 0, 0, 0, 0, 0, 0, 0,
          0, 0, 0, 0, 0xE0, 0xFF, 0xFF, 0xFF, 0, 0, 0, 0] 0 0 0xFFFFFFE0 = .oob ∧
      main env
        [0x43, 0x44, 0x56, 0x4E, 0, 0, 0, 0, 0, 0, 0, 0, 0, 0, 0, 0, 0, 0, 0, 0, 0, 0, 0, 0,
          0, 0, 0, 0, 0, 0, 0, 0,
          0, 0, 0, 0, 0, 0, 0, 0, 0, 0, 0, 0, 0, 0, 0, 0, 0, 0, 0, 0, 0xE0, 0xFF, 0xFF, 0xFF]
        [0x9D, 0xA1, 0x46, 0x98, 0, 0, 0, 0, 0, 0, 0, 0, 0, 0, 0, 0, 0, 0, 0, 0, 0, 0, 0, 0,
          0, 0, 0, 0, 0xE0, 0xFF, 0xFF, 0xFF, 0, 0, 0, 0] = .oob := by
  refine ⟨by decide, rfl, rfl⟩

theorem nentries_eq {n : Nat} (h : n < 2 ^ 31) : (nentries n).toNat = (n - 32) / 24 := by
  have h1 : (n - 32) / 24 < 2 ^ 31 := by omega
  have h2 : (n - 32) / 24 % 2 ^ 32 = (n - 32) / 24 := Nat.mod_eq_of_lt (by omega)
  simp only [nentries, toInt32]
  rw [h2, if_pos h1]
  exact Int.toNat_ofNat _

/-- C7: index validation. An index file (below 2 GiB, so that `int` holds the
entry count) is accepted exactly when its size is at least 32, `size - 32` is
divisible by 24 and its first four bytes are `"CDVN"`: an accepted index makes
`main` walk `(size - 32) / 24` entries starting from entry 0 with no file
written yet, a rejected one makes it return status 1 before any entry is
processed and with no file written. A 32-byte index with the tag yields no
entry, no artifact and status 0 whatever the blob contains; a 33-byte index is
rejected. -/
theorem index_validation (env : Env) (toc bin : List Byte) (hsize : toc.length < 2 ^ 31) :
    (32 ≤ toc.length ∧ (toc.length - 32) % 24 = 0 ∧ toc.take 4 = tocMagic →
        main env toc bin = entryLoop env toc bin ((toc.length - 32) / 24) 0 []) ∧
      (¬ (32 ≤ toc.length ∧ (toc.length - 32) % 24 = 0 ∧ toc.take 4 = tocMagic) →
        main env toc bin = .ret (1, [])) ∧
      (toc.length = 32 → toc.take 4 = tocMagic → main env toc bin = .ret (0, [])) ∧
      (toc.length = 33 → main env toc bin = .ret (1, [])) := by
  have hacc : 32 ≤ toc.length ∧ (toc.length - 32) % 24 = 0 ∧ toc.take 4 = tocMagic →
      main env toc bin = entryLoop env toc bin ((toc.length - 32) / 24) 0 [] := by
    rintro ⟨h1, h2, h3⟩
    have hn : ¬ (toc.length < 0x20 ∨ (toc.length - 0x20) % 0x18 ≠ 0) := by
      omega
    simp only [main, hn, if_false, h3, ne_eq, not_true_eq_false, nentries_eq hsize]
  have hrej : ¬ (32 ≤ toc.length ∧ (toc.length - 32) % 24 = 0 ∧ toc.take 4 = tocMagic) →
      main env toc bin = .ret (1, []) := by
    intro h
    by_cases hn : toc.length < 0x20 ∨ (toc.length - 0x20) % 0x18 ≠ 0
    · simp only [main, hn, if_true]
    · have hm : toc.take 4 ≠ tocMagic := by
        intro hm
        apply h
        exact ⟨by omega, by omega, hm⟩
      simp only [main, hn, if_false, hm, ne_eq, not_false_eq_true, if_true]
  refine ⟨hacc, hrej, ?_, ?_⟩
  · intro h32 hm
    rw [hacc ⟨by omega, by omega, hm⟩, h32]
    rfl
  · intro h33
    apply hrej
    rintro ⟨_, h2, _⟩
    omega

theorem index_validation_witness :
    (32 ≤ ([0x43, 0x44, 0x56, 0x4E, 0, 0, 0, 0, 0, 0, 0, 0, 0, 0, 0, 0, 0, 0, 0, 0, 0, 0, 0, 0,
            0, 0, 0, 0, 0, 0, 0, 0] : List Byte).length) ∧
      main ⟨fun _ _ => none, fun _ => 0⟩
        [0x43, 0x44, 0x56, 0x4E, 0, 0, 0, 0, 0, 0, 0, 0, 0, 0, 0, 0, 0, 0, 0, 0, 0, 0, 0, 0,
          0, 0, 0, 0, 0, 0, 0, 0] [1, 2, 3] = .ret (0, []) :=
  ⟨by decide,
    (index_validation ⟨fun _ _ => none, fun _ => 0⟩
      [0x43, 0x44, 0x56, 0x4E, 0, 0, 0, 0, 0, 0, 0, 0, 0, 0, 0, 0, 0, 0, 0, 0, 0, 0, 0, 0,
        0, 0, 0, 0, 0, 0, 0, 0] [1, 2, 3] (by decide)).2.2.1 (by decide) (by decide)⟩

theorem magic_match_iff (m buf : List Byte) :
    (buf.length ≥ m.length ∧ buf.take m.length = m) ↔ m <+: buf := by
  constructor
  · rintro ⟨_, h⟩
    exact List.prefix_iff_eq_take.mpr h.symm
  · intro h
    exact ⟨h.length_le, (List.prefix_iff_eq_take.mp h).symm⟩

theorem findMagic_packmagic (P : List Byte) :
    findMagic packmagic P =
      if [0x05, 0x4E, 0x56, 0x75, 0x63] <+: P then PACKFMT_RLE
      else if [0x28, 0xB5, 0x2F, 0xFD] <+: P then PACKFMT_ZSTD
      else if [0x0A, 0x00, 0x00, 0x00] <+: P ∨ [0x0B, 0x00, 0x00, 0x00] <+: P then PACKFMT_RAW
      else 0 := by
  simp only [packmagic, findMagic, magic_match_iff]
  split_ifs <;> simp_all

theorem single_zero_iff (P : List Byte) : (P.length = 1 ∧ P[0]? = some 0) ↔ P = [0x00] := by
  constructor
  · rintro ⟨h1, h2⟩
    match P, h1, h2 with
    | [x], _, h2 =>
      simp at h2
      rw [h2]
  · intro h
    subst h
    exact ⟨rfl, rfl⟩

/-- The size probe always returns. -/
theorem unrle_probe_total (P : List Byte) : ∃ v, unrle [] 0 P = .ret (v, []) := by
  rcases unrle_probe_agree P [] 0 (Nat.le_refl _) with ⟨v, _, h, _⟩
  exact ⟨v, h⟩

theorem classifyPacking_eq (P : List Byte) (U : Nat) :
    classifyPacking P U = .ret (specPackingAmended P U).code := by
  rcases unrle_probe_total P with ⟨v, hv⟩
  unfold classifyPacking specPackingAmended specPacking
  simp only [findMagic_packmagic, single_zero_iff, hv, Exec.bind]
  by_cases h0 : P = [0x00]
  · subst h0
    simp [PackKind.code]
  · simp only [h0, if_false]
    by_cases h1 : [0x05, 0x4E, 0x56, 0x75, 0x63] <+: P
    · simp [h1, PackKind.code]
    · by_cases h2 : [0x28, 0xB5, 0x2F, 0xFD] <+: P
      · simp [h1, h2, PackKind.code]
      · by_cases h3 : [0x0A, 0x00, 0x00, 0x00] <+: P ∨ [0x0B, 0x00, 0x00, 0x00] <+: P
        · simp [h1, h2, h3, PackKind.code]
        · by_cases h4 : P.length = U
          · simp [h1, h2, h3, h4, PackKind.code]
          · have h4b : ¬ U = P.length := fun h => h4 h.symm
            by_cases h5 : (U : Int) = v
            · subst h5
              simp [h1, h2, h3, h4, h4b, PackKind.code]
            · have h5b : ¬ v = (U : Int) := fun h => h5 h.symm
              simp [h1, h2, h3, h4, h4b, h5, h5b, PackKind.code]

/-- C8 as stated fails: for the payload consisting of the single byte `00` and
declared uncompressed size 0, no magic matches, the payload length differs from
the declared size and the size probe fails, so the stated priority function
gives unknown; the code classifies the payload as RAW and goes on to write a
decompressed object. -/
theorem packing_single_zero_counterexample :
    specPacking [0x00] 0 = .unknown ∧
      classifyPacking [0x00] 0 = .ret PACKFMT_RAW ∧
      classifyPacking [0x00] 0 ≠ .ret (specPacking [0x00] 0).code ∧
      emitEntry ⟨fun _ _ => none, fun _ => 0⟩ 0 [] [0x00] 0 =
        .ret [("header00000.bin", []), ("object00000.raw", [0x00]),
          ("object00000.bin", [0x00])] := by
  refine ⟨by decide, by decide, by decide, by decide⟩

/-- C8 (amended): packing classification equals the specified priority
function, with one more rule: a payload consisting of the single byte `00` is
RAW. For every payload `P` and declared uncompressed size `U` the code computes
the kind `specPackingAmended P U`; and when that kind is unknown the entry
yields exactly the header artifact and the payload under the extension
`unknown`, with no decompressed object. -/
theorem packing_classification (env : Env) (i : Nat) (hdr P : List Byte) (U : Nat) :
    classifyPacking P U = .ret (specPackingAmended P U).code ∧
      (specPackingAmended P U = .unknown →
        emitEntry env i hdr P U =
          .ret [(headerName i, hdr), (objectName i "unknown", P)]) := by
  refine ⟨classifyPacking_eq P U, fun h => ?_⟩
  simp only [emitEntry, classifyPacking_eq, h, Exec.bind, PackKind.code, rawext,
    Exec.ofOption]
  simp

theorem packing_classification_witness :
    classifyPacking [1, 2, 3] 7 = .ret (specPackingAmended [1, 2, 3] 7).code ∧
      emitEntry ⟨fun _ _ => none, fun _ => 0⟩ 4 [9] [1, 2, 3] 7 =
        .ret [(headerName 4, [9]), (objectName 4 "unknown", [1, 2, 3])] :=
  ⟨(packing_classification ⟨fun _ _ => none, fun _ => 0⟩ 4 [9] [1, 2, 3] 7).1,
    (packing_classification ⟨fun _ _ => none, fun _ => 0⟩ 4 [9] [1, 2, 3] 7).2 (by decide)⟩

/-- Every call of `unrle` whose capacity its destination can hold returns, and
the destination keeps its size. -/
theorem unrle_total (src dst : List Byte) (c : Nat) (hc : c ≤ dst.length) :
    ∃ v d, unrle dst c src = .ret (v, d) ∧ d.length = dst.length := by
  rcases unrle_sim src dst dst c c hc hc with ⟨v, d, _, e, _, f, _, _⟩
  exact ⟨v, d, e, f.1⟩

theorem Env.length_malloc (env : Env) (n : Nat) : (env.malloc n).length = n := by
  simp [Env.malloc]

theorem findMagic_objmagic (D : List Byte) :
    findMagic objmagic D =
      if [0x4E, 0x56, 0x75, 0x63] <+: D then OBJTYPE_NVUC
      else if [0x4E, 0x56, 0x56, 0x4D, 0x4E, 0x56, 0x75, 0x63] <+: D then OBJTYPE_NVVM_NVUC
      else if [0x0A, 0x00, 0x00, 0x00] <+: D ∨ [0x0B, 0x00, 0x00, 0x00] <+: D then OBJTYPE_ARB
      else 0 := by
  simp only [objmagic, findMagic, magic_match_iff]
  split_ifs <;> simp_all

theorem nvuc_not_nvvm {D : List Byte} (h1 : [0x4E, 0x56, 0x75, 0x63] <+: D) :
    ¬ [0x4E, 0x56, 0x56, 0x4D, 0x4E, 0x56, 0x75, 0x63] <+: D := by
  rcases h1 with ⟨t, rfl⟩
  simp

theorem objectArtifact_bin {upk : List Byte} (h : classifyObject upk = 0) :
    objectArtifact upk = (some "bin", upk) := by
  simp [objectArtifact, h]

theorem objectArtifact_arb {upk : List Byte} (h : classifyObject upk = OBJTYPE_ARB) :
    objectArtifact upk = (some "arbbin", upk) := by
  simp [objectArtifact, h]

theorem objectArtifact_nvuc {upk : List Byte} (h : classifyObject upk = OBJTYPE_NVUC) :
    objectArtifact upk = (some "nvuc", upk) := by
  simp [objectArtifact, h]

theorem objectArtifact_nvvm {upk : List Byte} (h : classifyObject upk = OBJTYPE_NVVM_NVUC)
    (hlen : 4 ≤ upk.length) :
    objectArtifact upk = (some "nvuc", upk.drop 4) := by
  simp [objectArtifact, h, hlen]

/-- The decompressed artifact always has one of the three object extensions;
its bytes are the decompressed bytes, without their first four bytes when they
start with the outer tag followed by the archive tag. -/
theorem objectArtifact_spec (upk : List Byte) :
    ∃ ext, (objectArtifact upk).1 = some ext ∧ ext ∈ ["arbbin", "nvuc", "bin"] ∧
      (objectArtifact upk).2 =
        if [0x4E, 0x56, 0x56, 0x4D, 0x4E, 0x56, 0x75, 0x63] <+: upk then upk.drop 4
        else upk := by
  by_cases h1 : [0x4E, 0x56, 0x75, 0x63] <+: upk
  · have h2 := nvuc_not_nvvm h1
    have hc : classifyObject upk = OBJTYPE_NVUC := by
      simp [classifyObject, findMagic_objmagic, h1]
    rw [objectArtifact_nvuc hc]
    exact ⟨"nvuc", rfl, by simp, by simp [h2]⟩
  · by_cases h2 : [0x4E, 0x56, 0x56, 0x4D, 0x4E, 0x56, 0x75, 0x63] <+: upk
    · have hlen : 8 ≤ upk.length := h2.length_le
      have hc : classifyObject upk = OBJTYPE_NVVM_NVUC := by
        simp [classifyObject, findMagic_objmagic, h1, h2]
      rw [objectArtifact_nvvm hc (by omega)]
      exact ⟨"nvuc", rfl, by simp, by simp [h2]⟩
    · by_cases h3 : [0x0A, 0x00, 0x00, 0x00] <+: upk ∨ [0x0B, 0x00, 0x00, 0x00] <+: upk
      · have hc : classifyObject upk = OBJTYPE_ARB := by
          simp [classifyObject, findMagic_objmagic, h1, h2, h3]
        rw [objectArtifact_arb hc]
        exact ⟨"arbbin", rfl, by simp, by simp [h2]⟩
      · have hc : classifyObject upk = OBJTYPE_ARB ∨ classifyObject upk = 0 := by
          simp only [classifyObject, findMagic_objmagic, h1, h2, h3, if_false]
          split_ifs <;> simp
        rcases hc with hc | hc
        · rw [objectArtifact_arb hc]
          exact ⟨"arbbin", rfl, by simp, by simp [h2]⟩
        · rw [objectArtifact_bin hc]
          exact ⟨"bin", rfl, by simp, by simp [h2]⟩

theorem emitEntry_skip {env : Env} {i : Nat} {hdr P : List Byte} {U pf : Nat} {rext : String}
    (hpf : classifyPacking P U = .ret pf) (hne : pf ≠ 0) (hr : rawext pf = some rext)
    (hd : decompress env pf P U = .ret none) :
    emitEntry env i hdr P U = .ret [(headerName i, hdr), (objectName i rext, P)] := by
  simp only [emitEntry, hpf, Exec.bind, hr, Exec.ofOption, hne, if_false, hd]

theorem emitEntry_object {env : Env} {i : Nat} {hdr P upk : List Byte} {U pf : Nat}
    {rext oext : String}
    (hpf : classifyPacking P U = .ret pf) (hne : pf ≠ 0) (hr : rawext pf = some rext)
    (hd : decompress env pf P U = .ret (some upk)) (ho : (objectArtifact upk).1 = some oext) :
    emitEntry env i hdr P U =
      .ret [(headerName i, hdr), (objectName i rext, P),
        (objectName i oext, (objectArtifact upk).2)] := by
  simp only [emitEntry, hpf, Exec.bind, hr, Exec.ofOption, hne, if_false, hd, ho]
  rfl

theorem packfmt_cases {P : List Byte} {U pf : Nat} (hpf : classifyPacking P U = .ret pf)
    (hne : pf ≠ 0) : pf = PACKFMT_RAW ∨ pf = PACKFMT_RLE ∨ pf = PACKFMT_ZSTD := by
  rw [classifyPacking_eq] at hpf
  injection hpf with hpf
  subst hpf
  cases h : specPackingAmended P U <;> simp [h, PackKind.code] at hne ⊢

/-- The RLE branch of the decompression stage: the call of `unrle` returns; the
entry is kept exactly when the returned count is the declared size, and then
the decompressed bytes are the whole buffer of that size. -/
theorem decompress_rle (env : Env) (P : List Byte) (U : Nat) :
    decompress env PACKFMT_RLE P U = .ret none ∨
      ∃ upk, decompress env PACKFMT_RLE P U = .ret (some upk) ∧ upk.length = U := by
  rcases unrle_total P (env.malloc U) U (by rw [env.length_malloc]) with ⟨v, d, hrun, hlen⟩
  rw [env.length_malloc] at hlen
  simp only [decompress, hrun, Exec.bind]
  by_cases h1 : v < 0
  · left
    simp [h1]
  · by_cases h2 : v = (U : Int)
    · right
      subst h2
      refine ⟨d.take U, ?_, ?_⟩
      · simp
      · simp [hlen]
    · left
      simp [h1, h2]

/-- The zstd branch of the decompression stage: the entry is kept exactly when
the library reports no error and wrote as many bytes as the header declares. -/
theorem decompress_zstd (env : Env) (P : List Byte) (U : Nat) :
    decompress env PACKFMT_ZSTD P U = .ret none ∨
      ∃ upk, decompress env PACKFMT_ZSTD P U = .ret (some upk) ∧ upk.length = U := by
  simp only [decompress]
  cases h : env.ZSTD_decompress U P with
  | none =>
    left
    simp
  | some out =>
    by_cases h2 : out.length = U
    · right
      exact ⟨out, by simp [h2], h2⟩
    · left
      simp [h2]

/-- C9 as stated fails for RAW packing: the blob below holds one section whose
header declares section size 8 and uncompressed size 100 and whose 4-byte
payload starts with the raw-header sentinel `0A 00 00 00`. The entry is
classified RAW by that magic, its payload is passed through, and a
decompressed artifact of 4 bytes is written although the header declares 100. -/
theorem raw_size_unchecked_counterexample :
    le32At [0x9D, 0xA1, 0x46, 0x98, 0, 0, 0, 0, 0, 0, 0, 0, 0, 0, 0, 0, 0, 0, 0, 0, 0, 0, 0, 0,
        0, 0, 0, 0, 8, 0, 0, 0, 100, 0, 0, 0, 0x0A, 0, 0, 0] 32 = some 100 ∧
      classifyPacking [0x0A, 0, 0, 0] 100 = .ret PACKFMT_RAW ∧
      decompress ⟨fun _ _ => none, fun _ => 0⟩ PACKFMT_RAW [0x0A, 0, 0, 0] 100 =
        .ret (some [0x0A, 0, 0, 0]) ∧
      ([0x0A, 0, 0, 0] : List Byte).length ≠ 100 ∧
      processEntry ⟨fun _ _ => none, fun _ => 0⟩
        [0x9D, 0xA1, 0x46, 0x98, 0, 0, 0, 0, 0, 0, 0, 0, 0, 0, 0, 0, 0, 0, 0, 0, 0, 0, 0, 0,
          0, 0, 0, 0, 8, 0, 0, 0, 100, 0, 0, 0, 0x0A, 0, 0, 0] 0 0 8 =
        .ret (some [("header00000.bin",
            [0x9D, 0xA1, 0x46, 0x98, 0, 0, 0, 0, 0, 0, 0, 0, 0, 0, 0, 0, 0, 0, 0, 0, 0, 0, 0, 0,
              0, 0, 0, 0, 8, 0, 0, 0, 100, 0, 0, 0]),
          ("object00000.raw", [0x0A, 0, 0, 0]),
          ("object00000.arbbin", [0x0A, 0, 0, 0])]) := by
  refine ⟨by decide, by decide, by decide, by decide, by decide⟩

/-- C9 (amended): decompressed-size invariant. For every entry whose packing
kind is known, either a decompressed object artifact is written, and then the
decompressed byte sequence (before any outer-tag stripping) is the payload
itself when the kind is RAW, and has length equal to the declared uncompressed
size when the kind is RLE or zstd or when the payload length equals the
declared size (as it does whenever RAW was chosen by the size match); or the
kind is RLE or zstd, the decompression failed or gave another length, and the
entry is skipped with the header and payload artifacts only. -/
theorem decompressed_size_invariant (env : Env) (i : Nat) (hdr P : List Byte) (U pf : Nat)
    (hpf : classifyPacking P U = .ret pf) (hne : pf ≠ 0) :
    ∃ rext, rawext pf = some rext ∧
      ((∃ upk oext, decompress env pf P U = .ret (some upk) ∧
          (pf = PACKFMT_RAW → upk = P) ∧
          (pf ≠ PACKFMT_RAW ∨ P.length = U → upk.length = U) ∧
          (objectArtifact upk).1 = some oext ∧
          emitEntry env i hdr P U =
            .ret [(headerName i, hdr), (objectName i rext, P),
              (objectName i oext, (objectArtifact upk).2)]) ∨
        (pf ≠ PACKFMT_RAW ∧ decompress env pf P U = .ret none ∧
          emitEntry env i hdr P U = .ret [(headerName i, hdr), (objectName i rext, P)])) := by
  rcases packfmt_cases hpf hne with h | h | h
  · subst h
    rcases objectArtifact_spec P with ⟨oext, ho, _, _⟩
    have hd : decompress env PACKFMT_RAW P U = .ret (some P) := by simp [decompress]
    exact ⟨"raw", rfl, Or.inl ⟨P, oext, hd, fun _ => rfl,
      fun h => h.elim (fun h => absurd rfl h) id, ho, emitEntry_object hpf hne rfl hd ho⟩⟩
  · subst h
    refine ⟨"rle", rfl, ?_⟩
    rcases decompress_rle env P U with hd | ⟨upk, hd, hlen⟩
    · exact Or.inr ⟨by decide, hd, emitEntry_skip hpf hne rfl hd⟩
    · rcases objectArtifact_spec upk with ⟨oext, ho, _, _⟩
      exact Or.inl ⟨upk, oext, hd, fun h => absurd h (by decide), fun _ => hlen, ho,
        emitEntry_object hpf hne rfl hd ho⟩
  · subst h
    refine ⟨"zstd", rfl, ?_⟩
    rcases decompress_zstd env P U with hd | ⟨upk, hd, hlen⟩
    · exact Or.inr ⟨by decide, hd, emitEntry_skip hpf hne rfl hd⟩
    · rcases objectArtifact_spec upk with ⟨oext, ho, _, _⟩
      exact Or.inl ⟨upk, oext, hd, fun h => absurd h (by decide), fun _ => hlen, ho,
        emitEntry_object hpf hne rfl hd ho⟩

theorem decompressed_size_invariant_witness :
    ∃ rext, rawext PACKFMT_RLE = some rext ∧
      ((∃ upk oext, decompress ⟨fun _ _ => none, fun _ => 7⟩ PACKFMT_RLE
            [0x05, 0x4E, 0x56, 0x75, 0x63, 0x3F, 0x83] 8 = .ret (some upk) ∧
          (PACKFMT_RLE = PACKFMT_RAW → upk = [0x05, 0x4E, 0x56, 0x75, 0x63, 0x3F, 0x83]) ∧
          (PACKFMT_RLE ≠ PACKFMT_RAW ∨
              ([0x05, 0x4E, 0x56, 0x75, 0x63, 0x3F, 0x83] : List Byte).length = 8 →
            upk.length = 8) ∧
          (objectArtifact upk).1 = some oext ∧
          emitEntry ⟨fun _ _ => none, fun _ => 7⟩ 3 [1] [0x05, 0x4E, 0x56, 0x75, 0x63, 0x3F, 0x83] 8 =
            .ret [(headerName 3, [1]),
              (objectName 3 rext, [0x05, 0x4E, 0x56, 0x75, 0x63, 0x3F, 0x83]),
              (objectName 3 oext, (objectArtifact upk).2)]) ∨
        (PACKFMT_RLE ≠ PACKFMT_RAW ∧
          decompress ⟨fun _ _ => none, fun _ => 7⟩ PACKFMT_RLE
            [0x05, 0x4E, 0x56, 0x75, 0x63, 0x3F, 0x83] 8 = .ret none ∧
          emitEntry ⟨fun _ _ => none, fun _ => 7⟩ 3 [1] [0x05, 0x4E, 0x56, 0x75, 0x63, 0x3F, 0x83] 8 =
            .ret [(headerName 3, [1]),
              (objectName 3 rext, [0x05, 0x4E, 0x56, 0x75, 0x63, 0x3F, 0x83])])) :=
  decompressed_size_invariant ⟨fun _ _ => none, fun _ => 7⟩ 3 [1]
    [0x05, 0x4E, 0x56, 0x75, 0x63, 0x3F, 0x83] 8 PACKFMT_RLE (by decide) (by decide)

/-- C10 as stated fails: the blob below holds one section whose 8-byte payload
is `NVVMNVuc` and whose header declares uncompressed size 8. No packing magic
matches, the size match classifies the entry RAW, and the object is recognised
as an outer-tag-wrapped microcode archive: the decompressed artifact is the
4 bytes `NVuc`, not the 8 bytes of the packed payload artifact. -/
theorem raw_round_trip_counterexample :
    classifyPacking [0x4E, 0x56, 0x56, 0x4D, 0x4E, 0x56, 0x75, 0x63] 8 = .ret PACKFMT_RAW ∧
      processEntry ⟨fun _ _ => none, fun _ => 0⟩
        [0x9D, 0xA1, 0x46, 0x98, 0, 0, 0, 0, 0, 0, 0, 0, 0, 0, 0, 0, 0, 0, 0, 0, 0, 0, 0, 0,
          0, 0, 0, 0, 12, 0, 0, 0, 8, 0, 0, 0,
          0x4E, 0x56, 0x56, 0x4D, 0x4E, 0x56, 0x75, 0x63] 0 0 12 =
        .ret (some [("header00000.bin",
            [0x9D, 0xA1, 0x46, 0x98, 0, 0, 0, 0, 0, 0, 0, 0, 0, 0, 0, 0, 0, 0, 0, 0, 0, 0, 0, 0,
              0, 0, 0, 0, 12, 0, 0, 0, 8, 0, 0, 0]),
          ("object00000.raw", [0x4E, 0x56, 0x56, 0x4D, 0x4E, 0x56, 0x75, 0x63]),
          ("object00000.nvuc", [0x4E, 0x56, 0x75, 0x63])]) ∧
      ([0x4E, 0x56, 0x75, 0x63] : List Byte) ≠ [0x4E, 0x56, 0x56, 0x4D, 0x4E, 0x56, 0x75, 0x63] := by
  refine ⟨by decide, by decide, by decide⟩

/-- C10 (amended): RAW round trip up to outer-tag stripping. For every entry
whose packing is classified RAW, a decompressed object artifact is written
under one of the extensions arbbin, nvuc, bin; it is byte-identical to the
packed payload artifact `object{i}.raw`, unless the payload starts with the
eight bytes `NVVMNVuc`, in which case it is the payload without its first four
bytes. -/
theorem raw_round_trip (env : Env) (i : Nat) (hdr P : List Byte) (U : Nat)
    (hpf : classifyPacking P U = .ret PACKFMT_RAW) :
    ∃ oext, oext ∈ ["arbbin", "nvuc", "bin"] ∧
      emitEntry env i hdr P U =
        .ret [(headerName i, hdr), (objectName i "raw", P),
          (objectName i oext,
            if [0x4E, 0x56, 0x56, 0x4D, 0x4E, 0x56, 0x75, 0x63] <+: P then P.drop 4 else P)] := by
  rcases objectArtifact_spec P with ⟨oext, ho, hmem, hbytes⟩
  have hd : decompress env PACKFMT_RAW P U = .ret (some P) := by simp [decompress]
  refine ⟨oext, hmem, ?_⟩
  rw [emitEntry_object hpf (by decide) rfl hd ho, hbytes]

theorem raw_round_trip_witness :
    ∃ oext, oext ∈ ["arbbin", "nvuc", "bin"] ∧
      emitEntry ⟨fun _ _ => none, fun _ => 0⟩ 2 [1] [0x0B, 0, 0, 0, 33] 9 =
        .ret [(headerName 2, [1]), (objectName 2 "raw", [0x0B, 0, 0, 0, 33]),
          (objectName 2 oext,
            if [0x4E, 0x56, 0x56, 0x4D, 0x4E, 0x56, 0x75, 0x63] <+: ([0x0B, 0, 0, 0, 33] : List Byte)
            then ([0x0B, 0, 0, 0, 33] : List Byte).drop 4 else [0x0B, 0, 0, 0, 33])] :=
  raw_round_trip ⟨fun _ _ => none, fun _ => 0⟩ 2 [1] [0x0B, 0, 0, 0, 33] 9 (by decide)

/-! ### Object-type classification -/

theorem le32At_zero_eq_small (D : List Byte) (x : Byte) :
    le32At D 0 = some x.val ↔ [x, 0x00, 0x00, 0x00] <+: D := by
  match D with
  | [] => simp [le32At]
  | [_] => simp [le32At]
  | [_, _] => simp [le32At]
  | [_, _, _] => simp [le32At]
  | a :: b :: c :: d :: t =>
    have ha := a.isLt
    have hb := b.isLt
    have hc := c.isLt
    have hd := d.isLt
    have hx := x.isLt
    simp only [le32At, List.getElem?_cons_zero, List.getElem?_cons_succ, Option.some.injEq,
      List.cons_prefix_cons, List.nil_prefix, and_true, Fin.ext_iff]
    simp only [Fin.val_zero]
    constructor
    · intro h
      omega
    · intro h
      omega

theorem classifyObject_eq (D : List Byte) : classifyObject D = (specObject D).code := by
  have h10 := le32At_zero_eq_small D 0x0A
  have h11 := le32At_zero_eq_small D 0x0B
  simp only [Fin.isValue] at h10 h11
  have e10 : ((0x0A : Byte) : Nat) = 10 := rfl
  have e11 : ((0x0B : Byte) : Nat) = 11 := rfl
  rw [e10] at h10
  rw [e11] at h11
  unfold classifyObject specObject
  simp only [findMagic_objmagic]
  by_cases h1 : [0x4E, 0x56, 0x75, 0x63] <+: D
  · simp [h1, ObjKind.code]
  · by_cases h2 : [0x4E, 0x56, 0x56, 0x4D, 0x4E, 0x56, 0x75, 0x63] <+: D
    · simp [h1, h2, ObjKind.code]
    · by_cases h3 : [0x0A, 0x00, 0x00, 0x00] <+: D ∨ [0x0B, 0x00, 0x00, 0x00] <+: D
      · have hlen : 4 ≤ D.length := by
          rcases h3 with h | h <;> exact h.length_le
        have h3b : le32At D 0 = some 10 ∨ le32At D 0 = some 11 := by
          rcases h3 with h | h
          · exact Or.inl (h10.mpr h)
          · exact Or.inr (h11.mpr h)
        simp [h1, h2, h3, h3b, hlen, ObjKind.code]
      · have h3b : ¬ (le32At D 0 = some 10 ∨ le32At D 0 = some 11) := by
          rintro (h | h)
          · exact h3 (Or.inl (h10.mp h))
          · exact h3 (Or.inr (h11.mp h))
        simp only [h1, h2, h3, h3b, if_false, and_false, true_and, ge_iff_le]
        by_cases h5 : 8 ≤ D.length
        · by_cases h6 : le32At D 0 = some (D.length - 4) ∧ le32At D 4 = some 0x0A
          · simp [h5, h6, ObjKind.code]
          · simp [h5, h6, ObjKind.code]
        · simp [h5, ObjKind.code]

/-- C11: object-type classification equals the specified priority function on
the decompressed bytes `D`: microcode archive if `D` starts with `NVuc`; else
outer-tag-wrapped microcode archive if `D` starts with `NVVMNVuc`; else
assembly archive if `D` has at least 4 bytes and its first little-endian 32-bit
word is `0x0A` or `0x0B`; else assembly archive if `D` has at least 8 bytes,
its first word equals `length D - 4` and its second word is `0x0A`; otherwise
unknown, and then the object is written unchanged under the extension `bin`. -/
theorem object_classification (D : List Byte) :
    classifyObject D = (specObject D).code ∧
      (specObject D = .unknown → objectArtifact D = (some "bin", D)) := by
  refine ⟨classifyObject_eq D, fun h => ?_⟩
  apply objectArtifact_bin
  rw [classifyObject_eq, h]
  rfl

theorem object_classification_witness :
    classifyObject [1, 2, 3, 4, 5] = (specObject [1, 2, 3, 4, 5]).code ∧
      objectArtifact [1, 2, 3, 4, 5] = (some "bin", [1, 2, 3, 4, 5]) :=
  ⟨(object_classification [1, 2, 3, 4, 5]).1, (object_classification [1, 2, 3, 4, 5]).2 (by decide)⟩

/-- C19: outer-tag stripping yields a microcode archive. For every decompressed
byte sequence `D` that starts with `NVVMNVuc` (so that it is classified as
outer-tag-wrapped), the emitted object is `D` without its first 4 bytes
(`length D - 4` bytes), it is written with the extension `nvuc`, and the
object-type classification of the emitted bytes is microcode archive. -/
theorem outer_tag_stripping (D : List Byte)
    (h : [0x4E, 0x56, 0x56, 0x4D, 0x4E, 0x56, 0x75, 0x63] <+: D) :
    classifyObject D = OBJTYPE_NVVM_NVUC ∧
      objectArtifact D = (some "nvuc", D.drop 4) ∧
      (D.drop 4).length = D.length - 4 ∧
      classifyObject (D.drop 4) = OBJTYPE_NVUC := by
  have hlen : 8 ≤ D.length := h.length_le
  have hc : classifyObject D = OBJTYPE_NVVM_NVUC := by
    have h1 : ¬ [0x4E, 0x56, 0x75, 0x63] <+: D := fun h1 => nvuc_not_nvvm h1 h
    simp [classifyObject, findMagic_objmagic, h1, h]
  refine ⟨hc, objectArtifact_nvvm hc (by omega), List.length_drop _ _, ?_⟩
  rcases h with ⟨t, rfl⟩
  have h2 : [0x4E, 0x56, 0x75, 0x63] <+:
      List.drop 4 ([0x4E, 0x56, 0x56, 0x4D, 0x4E, 0x56, 0x75, 0x63] ++ t) := by
    simp
  simp [classifyObject, findMagic_objmagic, h2]

theorem outer_tag_stripping_witness :
    classifyObject [0x4E, 0x56, 0x56, 0x4D, 0x4E, 0x56, 0x75, 0x63, 7] = OBJTYPE_NVVM_NVUC ∧
      objectArtifact [0x4E, 0x56, 0x56, 0x4D, 0x4E, 0x56, 0x75, 0x63, 7] =
        (some "nvuc", ([0x4E, 0x56, 0x56, 0x4D, 0x4E, 0x56, 0x75, 0x63, 7] : List Byte).drop 4) ∧
      (([0x4E, 0x56, 0x56, 0x4D, 0x4E, 0x56, 0x75, 0x63, 7] : List Byte).drop 4).length =
        ([0x4E, 0x56, 0x56, 0x4D, 0x4E, 0x56, 0x75, 0x63, 7] : List Byte).length - 4 ∧
      classifyObject (([0x4E, 0x56, 0x56, 0x4D, 0x4E, 0x56, 0x75, 0x63, 7] : List Byte).drop 4) =
        OBJTYPE_NVUC :=
  outer_tag_stripping [0x4E, 0x56, 0x56, 0x4D, 0x4E, 0x56, 0x75, 0x63, 7] (by decide)

/-! ### Artifacts of one entry -/

theorem rawext_code (k : PackKind) : rawext k.code = some k.ext := by
  cases k <;> rfl

/-- Whatever the packing classification and the outcome of the decompression,
an entry that reaches classification writes its header, then its payload under
the extension of its packing kind, then at most one more file. -/
theorem emitEntry_shape (env : Env) (i : Nat) (hdr P : List Byte) (U : Nat) :
    ∃ rest, emitEntry env i hdr P U =
        .ret ((headerName i, hdr) :: (objectName i (specPackingAmended P U).ext, P) :: rest) ∧
      rest.length ≤ 1 := by
  have hpf := classifyPacking_eq P U
  have hr := rawext_code (specPackingAmended P U)
  by_cases hne : (specPackingAmended P U).code = 0
  · refine ⟨[], ?_, by simp⟩
    have hr0 := hr
    rw [hne] at hr0
    simp only [emitEntry, hpf, Exec.bind, Exec.ofOption, hne, hr0, if_true]
  · have hd : ∃ r, decompress env (specPackingAmended P U).code P U = .ret r := by
      rcases packfmt_cases hpf hne with h | h | h
      · rw [h]
        exact ⟨some P, by simp [decompress]⟩
      · rw [h]
        rcases decompress_rle env P U with hd | ⟨upk, hd, _⟩
        · exact ⟨none, hd⟩
        · exact ⟨some upk, hd⟩
      · rw [h]
        rcases decompress_zstd env P U with hd | ⟨upk, hd, _⟩
        · exact ⟨none, hd⟩
        · exact ⟨some upk, hd⟩
    rcases hd with ⟨r, hd⟩
    cases r with
    | none =>
      exact ⟨[], emitEntry_skip hpf hne hr hd, by simp⟩
    | some upk =>
      rcases objectArtifact_spec upk with ⟨oext, ho, _, _⟩
      exact ⟨[(objectName i oext, (objectArtifact upk).2)],
        emitEntry_object hpf hne hr hd ho, by simp⟩

theorem le32At_of_length (buf : List Byte) (off : Nat) (h : off + 4 ≤ buf.length) :
    ∃ v, le32At buf off = some v := by
  have h0 : buf[off]? = some buf[off] := List.getElem?_eq_getElem (by omega)
  have h1 : buf[off + 1]? = some buf[off + 1] := List.getElem?_eq_getElem (by omega)
  have h2 : buf[off + 2]? = some buf[off + 2] := List.getElem?_eq_getElem (by omega)
  have h3 : buf[off + 3]? = some buf[off + 3] := List.getElem?_eq_getElem (by omega)
  simp only [le32At, h0, h1, h2, h3]
  exact ⟨_, rfl⟩

theorem slice_of_le {buf : List Byte} {off n : Nat} (h : off + n ≤ buf.length) :
    slice buf off n = some ((buf.drop off).take n) := by
  simp [slice, h]

theorem length_slice {buf : List Byte} {off n : Nat} (h : off + n ≤ buf.length) :
    ((buf.drop off).take n).length = n := by
  simp only [List.length_take, List.length_drop]
  omega

/-- An entry whose range lies inside the blob and whose header carries the
magic and the declared size of the index entry reaches `emitEntry`. -/
theorem processEntry_valid (env : Env) (bin : List Byte) (i o s U : Nat)
    (hs : 4 ≤ s) (hrange : o + 36 + (s - 4) ≤ bin.length)
    (hmagic : le32At ((bin.drop o).take 36) 0 = some 0x9846A19D)
    (hsize : le32At ((bin.drop o).take 36) 28 = some s)
    (hupk : le32At ((bin.drop o).take 36) 32 = some U) :
    processEntry env bin i o s =
      (emitEntry env i ((bin.drop o).take 36) ((bin.drop (o + 36)).take (s - 4)) U).bind
        fun files => .ret (some files) := by
  have h1 : ¬ s < 0x4 := by omega
  have hmod : (o + 0x24 + (s - 0x4)) % 2 ^ 32 ≤ o + 0x24 + (s - 0x4) := Nat.mod_le _ _
  have h2 : ¬ (o > bin.length ∨ (o + 0x24 + (s - 0x4)) % 2 ^ 32 > bin.length) := by
    omega
  have h3 : slice bin o 0x24 = some ((bin.drop o).take 36) := slice_of_le (by omega)
  have h4 : slice bin (o + 0x24) (s - 0x4) = some ((bin.drop (o + 36)).take (s - 4)) :=
    slice_of_le (by omega)
  simp only [processEntry, h1, if_false, h2, h3, Exec.ofOption, Exec.bind, hmagic, hsize,
    hupk, ne_eq, not_true_eq_false, h4]

/-- C15: for every entry reaching classification (declared size `s ≥ 4`, range
`o + 36 + (s - 4)` inside the blob, header size and magic matching), the
walker writes `header{i}.bin` holding exactly the 36 header bytes at the blob
offset `o`, then `object{i}.<ext>` holding exactly the `s - 4` payload bytes
that follow the header, with `<ext>` one of raw, rle, zstd, unknown according
to the packing classification of the payload; this holds whatever the
classification and whatever the outcome of the decompression, which adds at
most one more file. -/
theorem entry_header_and_payload_emitted (env : Env) (bin : List Byte) (i o s : Nat)
    (hs : 4 ≤ s) (hrange : o + 36 + (s - 4) ≤ bin.length)
    (hmagic : le32At ((bin.drop o).take 36) 0 = some 0x9846A19D)
    (hsize : le32At ((bin.drop o).take 36) 28 = some s) :
    ∃ U rest, le32At ((bin.drop o).take 36) 32 = some U ∧
      classifyPacking ((bin.drop (o + 36)).take (s - 4)) U =
        .ret (specPackingAmended ((bin.drop (o + 36)).take (s - 4)) U).code ∧
      (specPackingAmended ((bin.drop (o + 36)).take (s - 4)) U).ext ∈
        ["raw", "rle", "zstd", "unknown"] ∧
      processEntry env bin i o s =
        .ret (some ((headerName i, (bin.drop o).take 36) ::
          (objectName i (specPackingAmended ((bin.drop (o + 36)).take (s - 4)) U).ext,
            (bin.drop (o + 36)).take (s - 4)) :: rest)) ∧
      ((bin.drop o).take 36).length = 36 ∧
      ((bin.drop (o + 36)).take (s - 4)).length = s - 4 ∧
      rest.length ≤ 1 := by
  have hlen : ((bin.drop o).take 36).length = 36 := length_slice (by omega)
  rcases le32At_of_length ((bin.drop o).take 36) 32 (by omega) with ⟨U, hU⟩
  rcases emitEntry_shape env i ((bin.drop o).take 36) ((bin.drop (o + 36)).take (s - 4)) U with
    ⟨rest, hemit, hrest⟩
  refine ⟨U, rest, hU, classifyPacking_eq _ _, ?_, ?_, hlen, length_slice (by omega), hrest⟩
  · cases specPackingAmended ((bin.drop (o + 36)).take (s - 4)) U <;> simp [PackKind.ext]
  · rw [processEntry_valid env bin i o s U hs hrange hmagic hsize hU, hemit]
    rfl

theorem entry_header_and_payload_emitted_witness :
    ∃ U rest, le32At ((([0x9D, 0xA1, 0x46, 0x98, 0, 0, 0, 0, 0, 0, 0, 0, 0, 0, 0, 0, 0, 0, 0, 0,
          0, 0, 0, 0, 0, 0, 0, 0, 6, 0, 0, 0, 9, 0, 0, 0, 1, 2] : List Byte).drop 0).take 36) 32 =
        some U ∧
      classifyPacking ((([0x9D, 0xA1, 0x46, 0x98, 0, 0, 0, 0, 0, 0, 0, 0, 0, 0, 0, 0, 0, 0, 0, 0,
          0, 0, 0, 0, 0, 0, 0, 0, 6, 0, 0, 0, 9, 0, 0, 0, 1, 2] : List Byte).drop (0 + 36)).take
            (6 - 4)) U =
        .ret (specPackingAmended ((([0x9D, 0xA1, 0x46, 0x98, 0, 0, 0, 0, 0, 0, 0, 0, 0, 0, 0, 0,
          0, 0, 0, 0, 0, 0, 0, 0, 0, 0, 0, 0, 6, 0, 0, 0, 9, 0, 0, 0, 1, 2] : List Byte).drop
            (0 + 36)).take (6 - 4)) U).code ∧
      (specPackingAmended ((([0x9D, 0xA1, 0x46, 0x98, 0, 0, 0, 0, 0, 0, 0, 0, 0, 0, 0, 0,
          0, 0, 0, 0, 0, 0, 0, 0, 0, 0, 0, 0, 6, 0, 0, 0, 9, 0, 0, 0, 1, 2] : List Byte).drop
            (0 + 36)).take (6 - 4)) U).ext ∈ ["raw", "rle", "zstd", "unknown"] ∧
      processEntry ⟨fun _ _ => none, fun _ => 0⟩
          [0x9D, 0xA1, 0x46, 0x98, 0, 0, 0, 0, 0, 0, 0, 0, 0, 0, 0, 0, 0, 0, 0, 0,
            0, 0, 0, 0, 0, 0, 0, 0, 6, 0, 0, 0, 9, 0, 0, 0, 1, 2] 5 0 6 =
        .ret (some ((headerName 5,
            (([0x9D, 0xA1, 0x46, 0x98, 0, 0, 0, 0, 0, 0, 0, 0, 0, 0, 0, 0, 0, 0, 0, 0,
              0, 0, 0, 0, 0, 0, 0, 0, 6, 0, 0, 0, 9, 0, 0, 0, 1, 2] : List Byte).drop 0).take 36) ::
          (objectName 5 (specPackingAmended ((([0x9D, 0xA1, 0x46, 0x98, 0, 0, 0, 0, 0, 0, 0, 0,
              0, 0, 0, 0, 0, 0, 0, 0, 0, 0, 0, 0, 0, 0, 0, 0, 6, 0, 0, 0, 9, 0, 0, 0, 1, 2] :
                List Byte).drop (0 + 36)).take (6 - 4)) U).ext,
            (([0x9D, 0xA1, 0x46, 0x98, 0, 0, 0, 0, 0, 0, 0, 0, 0, 0, 0, 0, 0, 0, 0, 0,
              0, 0, 0, 0, 0, 0, 0, 0, 6, 0, 0, 0, 9, 0, 0, 0, 1, 2] : List Byte).drop
                (0 + 36)).take (6 - 4)) :: rest)) ∧
      (((([0x9D, 0xA1, 0x46, 0x98, 0, 0, 0, 0, 0, 0, 0, 0, 0, 0, 0, 0, 0, 0, 0, 0,
          0, 0, 0, 0, 0, 0, 0, 0, 6, 0, 0, 0, 9, 0, 0, 0, 1, 2] : List Byte).drop 0).take
            36).length = 36) ∧
      (((([0x9D, 0xA1, 0x46, 0x98, 0, 0, 0, 0, 0, 0, 0, 0, 0, 0, 0, 0, 0, 0, 0, 0,
          0, 0, 0, 0, 0, 0, 0, 0, 6, 0, 0, 0, 9, 0, 0, 0, 1, 2] : List Byte).drop (0 + 36)).take
            (6 - 4)).length = 6 - 4) ∧
      rest.length ≤ 1 :=
  entry_header_and_payload_emitted ⟨fun _ _ => none, fun _ => 0⟩
    [0x9D, 0xA1, 0x46, 0x98, 0, 0, 0, 0, 0, 0, 0, 0, 0, 0, 0, 0, 0, 0, 0, 0,
      0, 0, 0, 0, 0, 0, 0, 0, 6, 0, 0, 0, 9, 0, 0, 0, 1, 2] 5 0 6
    (by decide) (by decide) (by decide) (by decide)

theorem digitVal_digitChar {k : Nat} (h : k < 10) : digitVal (Nat.digitChar k) = k := by
  interval_cases k <;> rfl

theorem digitChar_ne_dot {k : Nat} (h : k < 10) : Nat.digitChar k ≠ '.' := by
  interval_cases k <;> decide

theorem foldl_toDigitsCore (fuel : Nat) :
    ∀ (n : Nat) (ds : List Char), n < fuel →
      (Nat.toDigitsCore 10 fuel n ds).foldl (fun a c => 10 * a + digitVal c) 0 =
        ds.foldl (fun a c => 10 * a + digitVal c) n := by
  induction fuel with
  | zero =>
    intro n ds h
    omega
  | succ fuel ih =>
    intro n ds h
    have hd : digitVal (Nat.digitChar (n % 10)) = n % 10 :=
      digitVal_digitChar (Nat.mod_lt _ (by norm_num))
    simp only [Nat.toDigitsCore]
    by_cases h0 : n / 10 = 0
    · simp only [h0, if_true, List.foldl_cons, hd]
      congr 1
      omega
    · simp only [h0, if_false]
      rw [ih (n / 10) _ (by omega)]
      simp only [List.foldl_cons, hd]
      congr 1
      omega

theorem charsVal_toDigits (n : Nat) : charsVal (Nat.toDigits 10 n) = n := by
  simp only [charsVal, Nat.toDigits]
  rw [foldl_toDigitsCore (n + 1) n [] (by omega)]
  rfl

theorem charsVal_zeros (p : Nat) (l : List Char) :
    charsVal (List.replicate p '0' ++ l) = charsVal l := by
  induction p with
  | zero => simp
  | succ p ih =>
    simp only [charsVal, List.replicate_succ, List.cons_append, List.foldl_cons] at ih ⊢
    exact ih

theorem charsVal_fmt05d (i : Nat) : charsVal (fmt05d i).data = i := by
  simp only [fmt05d]
  rw [charsVal_zeros, charsVal_toDigits]

theorem fmt05d_injective {i j : Nat} (h : fmt05d i = fmt05d j) : i = j := by
  have := congrArg (fun s => charsVal s.data) h
  simpa only [charsVal_fmt05d] using this

theorem dot_not_mem_toDigitsCore (fuel : Nat) :
    ∀ (n : Nat) (ds : List Char), '.' ∉ ds → '.' ∉ Nat.toDigitsCore 10 fuel n ds := by
  induction fuel with
  | zero =>
    intro n ds h
    simpa [Nat.toDigitsCore] using h
  | succ fuel ih =>
    intro n ds h
    have hd : Nat.digitChar (n % 10) ≠ '.' := digitChar_ne_dot (Nat.mod_lt _ (by norm_num))
    have hcons : '.' ∉ Nat.digitChar (n % 10) :: ds := by
      simp only [List.mem_cons, not_or]
      exact ⟨fun e => hd e.symm, h⟩
    simp only [Nat.toDigitsCore]
    split
    · exact hcons
    · exact ih _ _ hcons

theorem dot_not_mem_fmt05d (i : Nat) : '.' ∉ (fmt05d i).data := by
  simp only [fmt05d, List.mem_append, not_or]
  constructor
  · intro h
    have := List.eq_of_mem_replicate h
    exact absurd this (by decide)
  · exact dot_not_mem_toDigitsCore _ _ _ (by simp)

theorem append_cons_inj_left {a : Char} :
    ∀ (x₁ x₂ z₁ z₂ : List Char), a ∉ x₁ → a ∉ x₂ → x₁ ++ a :: z₁ = x₂ ++ a :: z₂ →
      x₁ = x₂ ∧ z₁ = z₂ := by
  intro x₁
  induction x₁ with
  | nil =>
    intro x₂ z₁ z₂ _ h2 h
    cases x₂ with
    | nil =>
      simp at h
      exact ⟨rfl, h⟩
    | cons b x₂ =>
      simp only [List.nil_append, List.cons_append, List.cons.injEq] at h
      exact absurd (by rw [h.1]; simp) h2
  | cons c x₁ ih =>
    intro x₂ z₁ z₂ h1 h2 h
    cases x₂ with
    | nil =>
      simp only [List.nil_append, List.cons_append, List.cons.injEq] at h
      exact absurd (by rw [← h.1]; simp) h1
    | cons b x₂ =>
      simp only [List.cons_append, List.cons.injEq] at h
      have h1' : a ∉ x₁ := fun hm => h1 (List.mem_cons_of_mem _ hm)
      have h2' : a ∉ x₂ := fun hm => h2 (List.mem_cons_of_mem _ hm)
      rcases ih x₂ z₁ z₂ h1' h2' h.2 with ⟨e1, e2⟩
      exact ⟨by rw [h.1, e1], e2⟩

theorem headerName_data (i : Nat) :
    (headerName i).data = 'h' :: 'e' :: 'a' :: 'd' :: 'e' :: 'r' :: ((fmt05d i).data ++ ".bin".data) := by
  simp only [headerName, String.data_append]
  rfl

theorem objectName_data (i : Nat) (ext : String) :
    (objectName i ext).data =
      'o' :: 'b' :: 'j' :: 'e' :: 'c' :: 't' :: ((fmt05d i).data ++ '.' :: ext.data) := by
  simp only [objectName, String.data_append]
  simp

theorem headerName_ne_objectName (i j : Nat) (ext : String) : headerName i ≠ objectName j ext := by
  intro h
  have := congrArg String.data h
  rw [headerName_data, objectName_data] at this
  simp at this

theorem headerName_injective {i j : Nat} (h : headerName i = headerName j) : i = j := by
  have := congrArg String.data h
  rw [headerName_data, headerName_data] at this
  simp only [List.cons.injEq, true_and, List.append_left_inj] at this
  exact fmt05d_injective (String.ext this)

theorem objectName_injective {i j : Nat} {e e' : String} (h : objectName i e = objectName j e') :
    i = j ∧ e = e' := by
  have := congrArg String.data h
  rw [objectName_data, objectName_data] at this
  simp only [List.cons.injEq, true_and] at this
  rcases append_cons_inj_left _ _ _ _ (dot_not_mem_fmt05d i) (dot_not_mem_fmt05d j) this with
    ⟨e1, e2⟩
  exact ⟨fmt05d_injective (String.ext e1), String.ext e2⟩

/-- The files an entry writes carry the names of its header, of its packed
payload and, when there is one, of its decompressed object. -/
theorem emitEntry_names (env : Env) (i : Nat) (hdr P : List Byte) (U : Nat) :
    ∃ rext oext files, rext ∈ ArtifactKind.packed.exts ∧ oext ∈ ArtifactKind.object.exts ∧
      emitEntry env i hdr P U = .ret files ∧
      (files.map Prod.fst =
          [artifactName i .header "bin", artifactName i .packed rext] ∨
        files.map Prod.fst =
          [artifactName i .header "bin", artifactName i .packed rext,
            artifactName i .object oext]) := by
  have hpf := classifyPacking_eq P U
  have hr := rawext_code (specPackingAmended P U)
  have hmem : (specPackingAmended P U).ext ∈ ArtifactKind.packed.exts := by
    cases specPackingAmended P U <;> simp [PackKind.ext, ArtifactKind.exts]
  by_cases hne : (specPackingAmended P U).code = 0
  · have hr0 := hr
    rw [hne] at hr0
    refine ⟨(specPackingAmended P U).ext, "bin",
      [(headerName i, hdr), (objectName i (specPackingAmended P U).ext, P)], hmem,
      by simp [ArtifactKind.exts], ?_, Or.inl rfl⟩
    simp only [emitEntry, hpf, Exec.bind, Exec.ofOption, hne, hr0, if_true]
  · have hd : ∃ r, decompress env (specPackingAmended P U).code P U = .ret r := by
      rcases packfmt_cases hpf hne with h | h | h
      · rw [h]
        exact ⟨some P, by simp [decompress]⟩
      · rw [h]
        rcases decompress_rle env P U with hd | ⟨upk, hd, _⟩
        · exact ⟨none, hd⟩
        · exact ⟨some upk, hd⟩
      · rw [h]
        rcases decompress_zstd env P U with hd | ⟨upk, hd, _⟩
        · exact ⟨none, hd⟩
        · exact ⟨some upk, hd⟩
    rcases hd with ⟨r, hd⟩
    cases r with
    | none =>
      exact ⟨_, "bin", _, hmem, by simp [ArtifactKind.exts], emitEntry_skip hpf hne hr hd,
        Or.inl rfl⟩
    | some upk =>
      rcases objectArtifact_spec upk with ⟨oext, ho, homem, _⟩
      exact ⟨_, oext, _, hmem, homem, emitEntry_object hpf hne hr hd ho, Or.inr rfl⟩

/-- C16: artifact names are unique per entry and per artifact kind. For all
entry indices `i`, `j` and artifact kinds `k`, `k'` among header, packed
payload and decompressed object, with extensions allowed for these kinds
(`header%05d.bin`, `object%05d.{raw|rle|zstd|unknown}`,
`object%05d.{arbbin|nvuc|bin}`), the name generated for `(i, k)` equals the
name generated for `(j, k')` only if `i = j` and `k = k'`; and the files an
entry writes carry exactly these names. -/
theorem artifact_names_unique (i j : Nat) (k k' : ArtifactKind) (e e' : String)
    (he : e ∈ k.exts) (he' : e' ∈ k'.exts) (h : artifactName i k e = artifactName j k' e') :
    (i = j ∧ k = k') ∧
      ∀ (env : Env) (hdr P : List Byte) (U : Nat),
        ∃ rext oext files, rext ∈ ArtifactKind.packed.exts ∧
          oext ∈ ArtifactKind.object.exts ∧ emitEntry env i hdr P U = .ret files ∧
          (files.map Prod.fst =
              [artifactName i .header "bin", artifactName i .packed rext] ∨
            files.map Prod.fst =
              [artifactName i .header "bin", artifactName i .packed rext,
                artifactName i .object oext]) := by
  refine ⟨?_, fun env hdr P U => emitEntry_names env i hdr P U⟩
  cases k <;> cases k' <;> simp only [artifactName] at h
  · exact ⟨headerName_injective h, rfl⟩
  · exact absurd h (headerName_ne_objectName _ _ _)
  · exact absurd h (headerName_ne_objectName _ _ _)
  · exact absurd h.symm (headerName_ne_objectName _ _ _)
  · exact ⟨(objectName_injective h).1, rfl⟩
  · have := (objectName_injective h).2
    subst this
    simp only [ArtifactKind.exts, List.mem_cons, List.mem_singleton, List.not_mem_nil,
      or_false] at he he'
    rcases he with rfl | rfl | rfl | rfl <;> simp at he'
  · exact absurd h.symm (headerName_ne_objectName _ _ _)
  · have := (objectName_injective h).2
    subst this
    simp only [ArtifactKind.exts, List.mem_cons, List.mem_singleton, List.not_mem_nil,
      or_false] at he he'
    rcases he' with rfl | rfl | rfl | rfl <;> simp at he
  · exact ⟨(objectName_injective h).1, rfl⟩

theorem artifact_names_unique_witness :
    ((123456 = 123456 ∧ ArtifactKind.packed = ArtifactKind.packed) ∧
      ∀ (env : Env) (hdr P : List Byte) (U : Nat),
        ∃ rext oext files, rext ∈ ArtifactKind.packed.exts ∧
          oext ∈ ArtifactKind.object.exts ∧ emitEntry env 123456 hdr P U = .ret files ∧
          (files.map Prod.fst =
              [artifactName 123456 .header "bin", artifactName 123456 .packed rext] ∨
            files.map Prod.fst =
              [artifactName 123456 .header "bin", artifactName 123456 .packed rext,
                artifactName 123456 .object oext])) ∧
      artifactName 123456 .packed "zstd" = "object123456.zstd" :=
  ⟨artifact_names_unique 123456 123456 .packed .packed "zstd" "zstd" (by decide) (by decide) rfl,
    by decide⟩

/-! ### The section extractor -/

theorem sectionLoop_status (bin : List Byte) (objsize : Nat) :
    ∀ (k i : Nat) (acc : List File) (st : Int) (fs : List File),
      sectionLoop bin objsize k i acc = .ret (st, fs) → st = 0 := by
  intro k
  induction k with
  | zero =>
    intro i acc st fs h
    simp only [sectionLoop] at h
    injection h with h
    injection h with h1 _
    exact h1.symm
  | succ k ih =>
    intro i acc st fs h
    simp only [sectionLoop] at h
    cases hp : processSection bin objsize i with
    | ret files =>
      rw [hp] at h
      exact ih _ _ _ _ h
    | oob =>
      rw [hp] at h
      cases h
    | fuel =>
      rw [hp] at h
      cases h

theorem nvucdump_sizes (bin : List Byte) :
    bin.length >>> 2 = bin.length / 4 ∧ (bin.length >>> 2) <<< 2 = bin.length / 4 * 4 := by
  constructor
  · rw [Nat.shiftRight_eq_div_pow]
  · rw [Nat.shiftRight_eq_div_pow, Nat.shiftLeft_eq]

theorem and_ffff (w : Nat) : w &&& 0xFFFF = w % 2 ^ 16 := by
  have e : (0xFFFF : Nat) = 2 ^ 16 - 1 := by norm_num
  rw [e, Nat.and_pow_two_sub_one_eq_mod]

/-- C14: the section-table check of the nested extractor. For every archive
buffer of at least 32 bytes that starts with `NVuc`, with section count `n` the
low 16 bits of the little-endian 32-bit word at byte offset 8: when
`32 + 32 * n` exceeds the buffer length the run returns status 1 with no
section extracted; otherwise the run is the section loop over the `n` table
entries, every table entry lies inside the buffer and its three fields are
read, and the run does not return a nonzero status. -/
theorem section_table_check (bin : List Byte) (h32 : 32 ≤ bin.length)
    (hmagic : bin.take 4 = nvucMagic) :
    ∃ w2, le32At bin 8 = some w2 ∧
      (bin.length < 32 + 32 * (w2 % 2 ^ 16) → nvucdump_main bin = .ret (1, [])) ∧
      (32 + 32 * (w2 % 2 ^ 16) ≤ bin.length →
        nvucdump_main bin = sectionLoop bin (bin.length / 4 * 4) (w2 % 2 ^ 16) 0 [] ∧
        (∀ st fs, nvucdump_main bin = .ret (st, fs) → st = 0) ∧
        ∀ i, i < w2 % 2 ^ 16 → 32 + 32 * i + 32 ≤ bin.length ∧
          ∃ t len off, le32At bin (4 * (8 + 8 * i)) = some t ∧
            le32At bin (4 * (8 + 8 * i) + 4) = some len ∧
            le32At bin (4 * (8 + 8 * i) + 8) = some off) := by
  rcases le32At_of_length bin 8 (by omega) with ⟨w2, hw2⟩
  rcases nvucdump_sizes bin with ⟨e1, _⟩
  have h8 : ¬ bin.length / 4 < 8 := by omega
  have hmain : nvucdump_main bin =
      if bin.length / 4 < 8 + 8 * (w2 % 2 ^ 16) then .ret (1, [])
      else sectionLoop bin (bin.length / 4 * 4) (w2 % 2 ^ 16) 0 [] := by
    have e3 : (bin.length / 4) <<< 2 = bin.length / 4 * 4 := by rw [Nat.shiftLeft_eq]
    simp only [nvucdump_main, e1, e3, h8, if_false, hmagic, ne_eq, not_true_eq_false, hw2,
      Exec.ofOption, Exec.bind, and_ffff]
  refine ⟨w2, hw2, fun h => ?_, fun h => ?_⟩
  · have : bin.length / 4 < 8 + 8 * (w2 % 2 ^ 16) := by omega
    rw [hmain, if_pos this]
  · have : ¬ bin.length / 4 < 8 + 8 * (w2 % 2 ^ 16) := by omega
    have hrun : nvucdump_main bin = sectionLoop bin (bin.length / 4 * 4) (w2 % 2 ^ 16) 0 [] := by
      rw [hmain, if_neg this]
    refine ⟨hrun, fun st fs hst => ?_, fun i hi => ?_⟩
    · rw [hrun] at hst
      exact sectionLoop_status _ _ _ _ _ _ _ hst
    · have hin : 32 + 32 * i + 32 ≤ bin.length := by omega
      rcases le32At_of_length bin (4 * (8 + 8 * i)) (by omega) with ⟨t, ht⟩
      rcases le32At_of_length bin (4 * (8 + 8 * i) + 4) (by omega) with ⟨len, hlen⟩
      rcases le32At_of_length bin (4 * (8 + 8 * i) + 8) (by omega) with ⟨off, hoff⟩
      exact ⟨hin, t, len, off, ht, hlen, hoff⟩

theorem section_table_check_witness :
    ∃ w2, le32At [0x4E, 0x56, 0x75, 0x63, 0, 0, 0, 0, 1, 0, 0, 0, 0, 0, 0, 0, 0, 0, 0, 0, 0, 0,
        0, 0, 0, 0, 0, 0, 0, 0, 0, 0] 8 = some w2 ∧
      (([0x4E, 0x56, 0x75, 0x63, 0, 0, 0, 0, 1, 0, 0, 0, 0, 0, 0, 0, 0, 0, 0, 0, 0, 0,
        0, 0, 0, 0, 0, 0, 0, 0, 0, 0] : List Byte).length < 32 + 32 * (w2 % 2 ^ 16) →
        nvucdump_main [0x4E, 0x56, 0x75, 0x63, 0, 0, 0, 0, 1, 0, 0, 0, 0, 0, 0, 0, 0, 0, 0, 0,
          0, 0, 0, 0, 0, 0, 0, 0, 0, 0, 0, 0] = .ret (1, [])) ∧
      (32 + 32 * (w2 % 2 ^ 16) ≤
          ([0x4E, 0x56, 0x75, 0x63, 0, 0, 0, 0, 1, 0, 0, 0, 0, 0, 0, 0, 0, 0, 0, 0, 0, 0,
            0, 0, 0, 0, 0, 0, 0, 0, 0, 0] : List Byte).length →
        nvucdump_main [0x4E, 0x56, 0x75, 0x63, 0, 0, 0, 0, 1, 0, 0, 0, 0, 0, 0, 0, 0, 0, 0, 0,
          0, 0, 0, 0, 0, 0, 0, 0, 0, 0, 0, 0] =
          sectionLoop [0x4E, 0x56, 0x75, 0x63, 0, 0, 0, 0, 1, 0, 0, 0, 0, 0, 0, 0, 0, 0, 0, 0,
            0, 0, 0, 0, 0, 0, 0, 0, 0, 0, 0, 0]
            (([0x4E, 0x56, 0x75, 0x63, 0, 0, 0, 0, 1, 0, 0, 0, 0, 0, 0, 0, 0, 0, 0, 0, 0, 0,
              0, 0, 0, 0, 0, 0, 0, 0, 0, 0] : List Byte).length / 4 * 4) (w2 % 2 ^ 16) 0 [] ∧
        (∀ st fs, nvucdump_main [0x4E, 0x56, 0x75, 0x63, 0, 0, 0, 0, 1, 0, 0, 0, 0, 0, 0, 0,
          0, 0, 0, 0, 0, 0, 0, 0, 0, 0, 0, 0, 0, 0, 0, 0] = .ret (st, fs) → st = 0) ∧
        ∀ i, i < w2 % 2 ^ 16 →
          32 + 32 * i + 32 ≤
            ([0x4E, 0x56, 0x75, 0x63, 0, 0, 0, 0, 1, 0, 0, 0, 0, 0, 0, 0, 0, 0, 0, 0, 0, 0,
              0, 0, 0, 0, 0, 0, 0, 0, 0, 0] : List Byte).length ∧
          ∃ t len off,
            le32At [0x4E, 0x56, 0x75, 0x63, 0, 0, 0, 0, 1, 0, 0, 0, 0, 0, 0, 0, 0, 0, 0, 0,
              0, 0, 0, 0, 0, 0, 0, 0, 0, 0, 0, 0] (4 * (8 + 8 * i)) = some t ∧
            le32At [0x4E, 0x56, 0x75, 0x63, 0, 0, 0, 0, 1, 0, 0, 0, 0, 0, 0, 0, 0, 0, 0, 0,
              0, 0, 0, 0, 0, 0, 0, 0, 0, 0, 0, 0] (4 * (8 + 8 * i) + 4) = some len ∧
            le32At [0x4E, 0x56, 0x75, 0x63, 0, 0, 0, 0, 1, 0, 0, 0, 0, 0, 0, 0, 0, 0, 0, 0,
              0, 0, 0, 0, 0, 0, 0, 0, 0, 0, 0, 0] (4 * (8 + 8 * i) + 8) = some off) :=
  section_table_check [0x4E, 0x56, 0x75, 0x63, 0, 0, 0, 0, 1, 0, 0, 0, 0, 0, 0, 0, 0, 0, 0, 0,
    0, 0, 0, 0, 0, 0, 0, 0, 0, 0, 0, 0] (by decide) (by decide)

theorem and_three (w : Nat) : w &&& 0x3 = w % 4 := by
  have e : (0x3 : Nat) = 2 ^ 2 - 1 := by norm_num
  rw [e, Nat.and_pow_two_sub_one_eq_mod]

/-- C13 as stated fails: the archive below has 66 bytes, a valid header with one
section, and a table entry with type code `0xAB`, length 2 and offset 64. The
offset is a multiple of 4 and `64 + 2 = 66` does not exceed the buffer length,
yet the section is skipped: the code compares against the length rounded down
to whole 32-bit words, which is 64. -/
theorem section_trailing_bytes_counterexample :
    ([0x4E, 0x56, 0x75, 0x63, 0, 0, 0, 0, 1, 0, 0, 0, 0, 0, 0, 0, 0, 0, 0, 0, 0, 0, 0, 0,
        0, 0, 0, 0, 0, 0, 0, 0,
        0xAB, 0, 0, 0, 2, 0, 0, 0, 64, 0, 0, 0, 0, 0, 0, 0, 0, 0, 0, 0, 0, 0, 0, 0,
        0, 0, 0, 0, 0, 0, 0, 0, 7, 8] : List Byte).length = 66 ∧
      le32At [0x4E, 0x56, 0x75, 0x63, 0, 0, 0, 0, 1, 0, 0, 0, 0, 0, 0, 0, 0, 0, 0, 0, 0, 0, 0, 0,
        0, 0, 0, 0, 0, 0, 0, 0,
        0xAB, 0, 0, 0, 2, 0, 0, 0, 64, 0, 0, 0, 0, 0, 0, 0, 0, 0, 0, 0, 0, 0, 0, 0,
        0, 0, 0, 0, 0, 0, 0, 0, 7, 8] (4 * (8 + 8 * 0) + 4) = some 2 ∧
      le32At [0x4E, 0x56, 0x75, 0x63, 0, 0, 0, 0, 1, 0, 0, 0, 0, 0, 0, 0, 0, 0, 0, 0, 0, 0, 0, 0,
        0, 0, 0, 0, 0, 0, 0, 0,
        0xAB, 0, 0, 0, 2, 0, 0, 0, 64, 0, 0, 0, 0, 0, 0, 0, 0, 0, 0, 0, 0, 0, 0, 0,
        0, 0, 0, 0, 0, 0, 0, 0, 7, 8] (4 * (8 + 8 * 0) + 8) = some 64 ∧
      64 % 4 = 0 ∧ 64 + 2 ≤ 66 ∧
      nvucdump_main
        [0x4E, 0x56, 0x75, 0x63, 0, 0, 0, 0, 1, 0, 0, 0, 0, 0, 0, 0, 0, 0, 0, 0, 0, 0, 0, 0,
          0, 0, 0, 0, 0, 0, 0, 0,
          0xAB, 0, 0, 0, 2, 0, 0, 0, 64, 0, 0, 0, 0, 0, 0, 0, 0, 0, 0, 0, 0, 0, 0, 0,
          0, 0, 0, 0, 0, 0, 0, 0, 7, 8] = .ret (0, []) := by
  refine ⟨by decide, by decide, by decide, by decide, by decide, by decide⟩

/-- C13 (amended): the section criterion of the nested extractor. For every
archive buffer and every section-table entry `i` with type code `t`, byte
length `len` and byte offset `off` whose sum `off + len` is below `2^32`: the
section is extracted exactly when `off` is a multiple of 4 and `off + len` does
not exceed the buffer length rounded down to a multiple of 4, and the artifact
`section{i}_{t}.bin` then holds exactly the `len` bytes `buffer[off .. off+len)`;
a misaligned or out-of-range section writes nothing; in both cases the loop
goes on with entry `i + 1`, the files written before being kept, so that
sibling sections are not affected. -/
theorem section_extraction (bin : List Byte) (i t len off k : Nat) (acc : List File)
    (ht : le32At bin (4 * (8 + 8 * i)) = some t)
    (hlen : le32At bin (4 * (8 + 8 * i) + 4) = some len)
    (hoff : le32At bin (4 * (8 + 8 * i) + 8) = some off)
    (hsum : off + len < 2 ^ 32) :
    (off % 4 = 0 ∧ off + len ≤ bin.length / 4 * 4 →
        processSection bin (bin.length / 4 * 4) i =
          .ret [(sectionName i t, (bin.drop off).take len)] ∧
        ((bin.drop off).take len).length = len) ∧
      (¬ (off % 4 = 0 ∧ off + len ≤ bin.length / 4 * 4) →
        processSection bin (bin.length / 4 * 4) i = .ret []) ∧
      (∀ fs, processSection bin (bin.length / 4 * 4) i = .ret fs →
        sectionLoop bin (bin.length / 4 * 4) (k + 1) i acc =
          sectionLoop bin (bin.length / 4 * 4) k (i + 1) (acc ++ fs)) := by
  have hmod : (off + len) % 2 ^ 32 = off + len := Nat.mod_eq_of_lt hsum
  have hle : bin.length / 4 * 4 ≤ bin.length := Nat.div_mul_le_self _ _
  refine ⟨fun h => ?_, fun h => ?_, fun fs h => ?_⟩
  · have h1 : ¬ off % 4 ≠ 0 := by omega
    have h2 : ¬ (off > bin.length / 4 * 4 ∨ off + len > bin.length / 4 * 4) := by omega
    have h3 : slice bin off len = some ((bin.drop off).take len) := slice_of_le (by omega)
    refine ⟨?_, length_slice (by omega)⟩
    simp only [processSection, ht, hlen, hoff, Exec.ofOption, Exec.bind, and_three, h1,
      if_false, hmod, h2, h3]
  · simp only [processSection, ht, hlen, hoff, Exec.ofOption, Exec.bind, and_three, hmod]
    by_cases h1 : off % 4 ≠ 0
    · simp [h1]
    · have h2 : off > bin.length / 4 * 4 ∨ off + len > bin.length / 4 * 4 := by omega
      simp [h1, h2]
  · simp only [sectionLoop, h, Exec.bind]

theorem section_extraction_witness :
    processSection
        [0x4E, 0x56, 0x75, 0x63, 0, 0, 0, 0, 1, 0, 0, 0, 0, 0, 0, 0, 0, 0, 0, 0, 0, 0, 0, 0,
          0, 0, 0, 0, 0, 0, 0, 0,
          0xAB, 0, 0, 0, 2, 0, 0, 0, 64, 0, 0, 0, 0, 0, 0, 0, 0, 0, 0, 0, 0, 0, 0, 0,
          0, 0, 0, 0, 0, 0, 0, 0, 7, 8, 9, 10]
        (([0x4E, 0x56, 0x75, 0x63, 0, 0, 0, 0, 1, 0, 0, 0, 0, 0, 0, 0, 0, 0, 0, 0, 0, 0, 0, 0,
          0, 0, 0, 0, 0, 0, 0, 0,
          0xAB, 0, 0, 0, 2, 0, 0, 0, 64, 0, 0, 0, 0, 0, 0, 0, 0, 0, 0, 0, 0, 0, 0, 0,
          0, 0, 0, 0, 0, 0, 0, 0, 7, 8, 9, 10] : List Byte).length / 4 * 4) 0 =
        .ret [(sectionName 0 0xAB,
          (([0x4E, 0x56, 0x75, 0x63, 0, 0, 0, 0, 1, 0, 0, 0, 0, 0, 0, 0, 0, 0, 0, 0, 0, 0, 0, 0,
            0, 0, 0, 0, 0, 0, 0, 0,
            0xAB, 0, 0, 0, 2, 0, 0, 0, 64, 0, 0, 0, 0, 0, 0, 0, 0, 0, 0, 0, 0, 0, 0, 0,
            0, 0, 0, 0, 0, 0, 0, 0, 7, 8, 9, 10] : List Byte).drop 64).take 2)] ∧
      ((([0x4E, 0x56, 0x75, 0x63, 0, 0, 0, 0, 1, 0, 0, 0, 0, 0, 0, 0, 0, 0, 0, 0, 0, 0, 0, 0,
          0, 0, 0, 0, 0, 0, 0, 0,
          0xAB, 0, 0, 0, 2, 0, 0, 0, 64, 0, 0, 0, 0, 0, 0, 0, 0, 0, 0, 0, 0, 0, 0, 0,
          0, 0, 0, 0, 0, 0, 0, 0, 7, 8, 9, 10] : List Byte).drop 64).take 2).length = 2 :=
  (section_extraction
    [0x4E, 0x56, 0x75, 0x63, 0, 0, 0, 0, 1, 0, 0, 0, 0, 0, 0, 0, 0, 0, 0, 0, 0, 0, 0, 0,
      0, 0, 0, 0, 0, 0, 0, 0,
      0xAB, 0, 0, 0, 2, 0, 0, 0, 64, 0, 0, 0, 0, 0, 0, 0, 0, 0, 0, 0, 0, 0, 0, 0,
      0, 0, 0, 0, 0, 0, 0, 0, 7, 8, 9, 10] 0 0xAB 2 64 0 []
    (by decide) (by decide) (by decide) (by decide)).1 (by decide)

/-! ### Memory safety of `unrle` -/

theorem LogInv.read {n c r i : Nat} {log : RleLog} (hi : i < n) (h : LogInv n c r log) :
    LogInv n c r (log.read i) := by
  rcases h with ⟨h1, h2, h3, h4⟩
  refine ⟨?_, h2, h3, h4⟩
  intro j hj
  simp only [RleLog.read, List.mem_cons] at hj
  rcases hj with rfl | hj
  · exact hi
  · exact h1 j hj

theorem LogInv.write {n c r i : Nat} {log : RleLog} (hi : i < c) (h : LogInv n c r log) :
    LogInv n c r (log.write i) := by
  rcases h with ⟨h1, h2, h3, h4⟩
  refine ⟨h1, ?_, h3, h4⟩
  intro j hj
  simp only [RleLog.write, List.mem_cons] at hj
  rcases hj with rfl | hj
  · exact hi
  · exact h2 j hj

theorem LogInv.move {n c r p : Nat} {log : RleLog} (hp : r ≤ p) (h : LogInv n c r log) :
    LogInv n c p (log.move p) := by
  rcases h with ⟨h1, h2, h3, h4⟩
  refine ⟨h1, h2, ?_, ?_⟩
  · intro q hq
    simp only [RleLog.move, List.mem_cons] at hq
    rcases hq with rfl | hq
    · exact Nat.le_refl _
    · exact Nat.le_trans (h3 q hq) hp
  · simp only [RleLog.move, List.pairwise_cons]
    exact ⟨fun q hq => Nat.le_trans (h3 q hq) hp, h4⟩

theorem LogInv.mono {n c r p : Nat} {log : RleLog} (hp : r ≤ p) (h : LogInv n c r log) :
    LogInv n c p log :=
  ⟨h.1, h.2.1, fun q hq => Nat.le_trans (h.2.2.1 q hq) hp, h.2.2.2⟩

theorem logInv_store {n c : Nat} {t : Nat} {s : RleState} {log : RleLog}
    (hv : t < 2 → s.r < n) (h : LogInv n c s.r log) : LogInv n c s.r (logStore c t s log) := by
  unfold logStore
  split
  · next hw =>
    apply LogInv.write hw
    split
    · next ht => exact LogInv.read (hv ht) h
    · exact h
  · exact h

/-- The accesses of the inner loop stay inside the buffers, and the loop does
not end in an access outside a buffer. -/
theorem unrleForLog_inv {c : Nat} (src : List Byte) (t : Nat) :
    ∀ (k : Nat) (s : RleState) (log : RleLog), s.r ≤ src.length → c ≤ s.d.length →
      LogInv src.length c s.r log →
      (∃ s1, unrleFor c src t k s = .next s1 ∧ s1.r ≤ src.length ∧
        LogInv src.length c s1.r (unrleForLog c src t k s log)) ∨
      (∃ d1 r1, unrleFor c src t k s = .ret (-1) d1 ∧ r1 ≤ src.length ∧
        LogInv src.length c r1 (unrleForLog c src t k s log)) := by
  intro k
  induction k with
  | zero =>
    intro s log hr _ h
    exact Or.inl ⟨s, rfl, hr, h⟩
  | succ k ih =>
    intro s log hr hc h
    by_cases hchk : t < 2 ∧ s.r = src.length
    · refine Or.inr ⟨s.d, s.r, ?_, hr, ?_⟩
      · simp [unrleFor, hchk]
      · simpa [unrleForLog, hchk] using h
    · have hv : t < 2 → s.r < src.length := by
        intro ht
        have : s.r ≠ src.length := fun h => hchk ⟨ht, h⟩
        omega
      obtain ⟨v, hv1⟩ := rleValue_some src t s.r hv
      have hst : rleStore c src t s = some (if s.wrsz < c then s.d.set s.wrsz v else s.d) :=
        rleStore_eq hc hv1
      have hlen : c ≤ (if s.wrsz < c then s.d.set s.wrsz v else s.d).length := by
        rw [(frame_store c s.wrsz s.d v).1]
        exact hc
      have hr1 : (if t = 0 then s.r + 1 else s.r) ≤ src.length := by
        split
        · have := hv (by omega)
          omega
        · exact hr
      have hlog : LogInv src.length c (if t = 0 then s.r + 1 else s.r)
          (if t = 0 then (logStore c t s log).move (s.r + 1) else logStore c t s log) := by
        split
        · exact LogInv.move (Nat.le_succ _) (logInv_store hv h)
        · exact logInv_store hv h
      have hstep := ih ⟨if t = 0 then s.r + 1 else s.r, (s.wrsz + 1) % 2 ^ 64,
        if s.wrsz < c then s.d.set s.wrsz v else s.d⟩ _ hr1 hlen hlog
      have eF : unrleFor c src t (k + 1) s =
          unrleFor c src t k ⟨if t = 0 then s.r + 1 else s.r, (s.wrsz + 1) % 2 ^ 64,
            if s.wrsz < c then s.d.set s.wrsz v else s.d⟩ := by
        simp only [unrleFor, hchk, if_false, hst]
      have eL : unrleForLog c src t (k + 1) s log =
          unrleForLog c src t k ⟨if t = 0 then s.r + 1 else s.r, (s.wrsz + 1) % 2 ^ 64,
            if s.wrsz < c then s.d.set s.wrsz v else s.d⟩
            (if t = 0 then (logStore c t s log).move (s.r + 1) else logStore c t s log) := by
        simp only [unrleForLog, hchk, if_false, hst]
      rw [eF, eL]
      exact hstep

theorem unrleFor_next_facts {c : Nat} (src : List Byte) (t k r w : Nat) (d : List Byte)
    (s1 : RleState) (hc : c ≤ d.length) (hr : r ≤ src.length) (hw : w < 2 ^ 64)
    (hf : unrleFor c src t k ⟨r, w, d⟩ = .next s1) :
    r ≤ s1.r ∧ s1.r ≤ src.length ∧ (t = 1 → 0 < k → s1.r < src.length) ∧
      s1.wrsz < 2 ^ 64 ∧ Frame c d s1.d := by
  rcases unrleFor_sim src t (Nat.le_refl c) (Nat.le_refl c) k r w d d hc hc hr hw
      (fun _ _ _ => rfl) with
    ⟨r1, w1, dA1, dB1, h1, _, h3, h4, _, h6, h7, h8, _, _⟩ | ⟨dA1, dB1, h1, _, _, _⟩
  · rw [hf] at h1
    injection h1 with h1
    subst h1
    exact ⟨h3, h4, h6, h7, h8⟩
  · rw [hf] at h1
    cases h1

/-- The accesses of the whole loop stay inside the buffers and the read
pointer never moves backwards nor passes the end of the input. -/
theorem unrleLoopLog_inv {c : Nat} (src : List Byte) :
    ∀ (fuel : Nat) (s : RleState) (log : RleLog), s.r ≤ src.length → c ≤ s.d.length →
      s.wrsz < 2 ^ 64 → LogInv src.length c s.r log →
      ∃ r1, r1 ≤ src.length ∧ LogInv src.length c r1 (unrleLoopLog c src fuel s log) := by
  intro fuel
  induction fuel with
  | zero =>
    intro s log hr _ _ h
    exact ⟨s.r, hr, h⟩
  | succ fuel ih =>
    intro s log hr hc hw h
    by_cases hlt : s.r < src.length
    · have hb : src[s.r]? = some src[s.r] := List.getElem?_eq_getElem hlt
      have h0 : LogInv src.length c s.r (log.read s.r) := LogInv.read hlt h
      by_cases hl : (src[s.r]).val &&& 0x3F = 0
      · refine ⟨s.r, hr, ?_⟩
        simp only [unrleLoopLog, hlt, if_true]
        rw [hb]
        simpa only [hl, if_true] using h0
      · have h1 : LogInv src.length c (s.r + 1) ((log.read s.r).move (s.r + 1)) :=
          LogInv.move (Nat.le_succ _) h0
        have hinner := unrleForLog_inv src ((src[s.r]).val >>> 6) ((src[s.r]).val &&& 0x3F)
          ⟨s.r + 1, s.wrsz, s.d⟩ _ hlt hc h1
        rcases hinner with ⟨s1, hf, hs1, hlog1⟩ | ⟨d1, r1, hf, hr1, hlog1⟩
        · rcases unrleFor_next_facts src _ _ _ _ _ s1 hc hlt hw hf with
            ⟨_, _, hfill, hw1, hframe⟩
          have e : unrleLoopLog c src (fuel + 1) s log =
              unrleLoopLog c src fuel
                ⟨if (src[s.r]).val >>> 6 = 1 then s1.r + 1 else s1.r, s1.wrsz, s1.d⟩
                (if (src[s.r]).val >>> 6 = 1 then
                  (unrleForLog c src ((src[s.r]).val >>> 6) ((src[s.r]).val &&& 0x3F)
                    ⟨s.r + 1, s.wrsz, s.d⟩ ((log.read s.r).move (s.r + 1))).move (s1.r + 1)
                else
                  unrleForLog c src ((src[s.r]).val >>> 6) ((src[s.r]).val &&& 0x3F)
                    ⟨s.r + 1, s.wrsz, s.d⟩ ((log.read s.r).move (s.r + 1))) := by
            simp only [unrleLoopLog, hlt, if_true]
            rw [hb]
            simp only [hl, if_false]
            rw [hf]
          rw [e]
          apply ih
          · show (if (src[s.r]).val >>> 6 = 1 then s1.r + 1 else s1.r) ≤ src.length
            split
            · next ht =>
              have := hfill ht (Nat.pos_of_ne_zero hl)
              omega
            · exact hs1
          · show c ≤ s1.d.length
            rw [hframe.1]
            exact hc
          · exact hw1
          · show LogInv src.length c (if (src[s.r]).val >>> 6 = 1 then s1.r + 1 else s1.r) _
            split
            · exact LogInv.move (Nat.le_succ _) hlog1
            · exact hlog1
        · refine ⟨r1, hr1, ?_⟩
          have e : unrleLoopLog c src (fuel + 1) s log =
              unrleForLog c src ((src[s.r]).val >>> 6) ((src[s.r]).val &&& 0x3F)
                ⟨s.r + 1, s.wrsz, s.d⟩ ((log.read s.r).move (s.r + 1)) := by
            simp only [unrleLoopLog, hlt, if_true]
            rw [hb]
            simp only [hl, if_false]
            rw [hf]
          rw [e]
          exact hlog1
    · refine ⟨s.r, hr, ?_⟩
      simpa only [unrleLoopLog, hlt, if_false] using h

/-- C17: `unrle` never accesses memory outside its buffers and always
terminates. For every input of `n` bytes and every capacity `c` (with a
destination of at least `c` bytes), well-formed or not, the call returns within
`n + 1` tests of the `while` condition, with no access outside a buffer; every
index of the input it reads is below `n`, every index of the destination it
writes is below `c`, and the successive values of the read pointer never
decrease and never exceed `n`; the destination keeps its size and its contents
from index `c` on. -/
theorem unrle_memory_safe (src dst : List Byte) (c : Nat) (hc : c ≤ dst.length) :
    (∃ v d, unrle dst c src = .ret (v, d) ∧ Frame c dst d) ∧
      (∀ i ∈ (unrleLog dst c src).reads, i < src.length) ∧
      (∀ i ∈ (unrleLog dst c src).writes, i < c) ∧
      (∀ p ∈ (unrleLog dst c src).ptrs, p ≤ src.length) ∧
      (unrleLog dst c src).ptrs.Pairwise (fun a b => b ≤ a) := by
  have hinit : LogInv src.length c 0 ⟨[], [], [0]⟩ := by
    refine ⟨by simp, by simp, by simp, by simp⟩
  rcases unrleLoopLog_inv src (src.length + 1) ⟨0, 0, dst⟩ ⟨[], [], [0]⟩ (Nat.zero_le _) hc
    (by norm_num) hinit with ⟨r1, hr1, h1, h2, h3, h4⟩
  rcases unrle_sim src dst dst c c hc hc with ⟨v, d, _, e, _, f, _, _⟩
  exact ⟨⟨v, d, e, f⟩, h1, h2, fun p hp => Nat.le_trans (h3 p hp) hr1, h4⟩

theorem unrle_memory_safe_witness :
    ((∃ v d, unrle [0, 0, 0] 3 [0x02, 7, 8, 0x83, 0x05, 1] = .ret (v, d) ∧ Frame 3 [0, 0, 0] d) ∧
      (∀ i ∈ (unrleLog [0, 0, 0] 3 [0x02, 7, 8, 0x83, 0x05, 1]).reads,
        i < ([0x02, 7, 8, 0x83, 0x05, 1] : List Byte).length) ∧
      (∀ i ∈ (unrleLog [0, 0, 0] 3 [0x02, 7, 8, 0x83, 0x05, 1]).writes, i < 3) ∧
      (∀ p ∈ (unrleLog [0, 0, 0] 3 [0x02, 7, 8, 0x83, 0x05, 1]).ptrs,
        p ≤ ([0x02, 7, 8, 0x83, 0x05, 1] : List Byte).length) ∧
      (unrleLog [0, 0, 0] 3 [0x02, 7, 8, 0x83, 0x05, 1]).ptrs.Pairwise (fun a b => b ≤ a)) ∧
      unrleLog [0, 0, 0] 3 [0x02, 7, 8, 0x83, 0x05, 1] =
        ⟨[4, 3, 2, 1, 0], [2, 1, 0], [6, 5, 4, 3, 2, 1, 0]⟩ ∧
      unrle [0, 0, 0] 3 [0x02, 7, 8, 0x83, 0x05, 1] = .ret (-1, [7, 8, 0xFF]) :=
  ⟨unrle_memory_safe [0x02, 7, 8, 0x83, 0x05, 1] [0, 0, 0] 3 (by decide), by decide, by decide⟩

/-! ### Runs of `unrle` whose counter does not wrap -/

/-- When the counter cannot wrap, the inner loop advances it by the number of
iterations and writes only at the indices it counts through. -/
theorem unrleFor_nowrap {c : Nat} (src : List Byte) (t : Nat) :
    ∀ (k : Nat) (s : RleState), c ≤ s.d.length → s.r ≤ src.length → s.wrsz + k < 2 ^ 64 →
      (∃ s1, unrleFor c src t k s = .next s1 ∧ s1.wrsz = s.wrsz + k ∧
        s1.d.length = s.d.length ∧
        ∀ i, i < s.wrsz ∨ s.wrsz + k ≤ i → s1.d[i]? = s.d[i]?) ∨
      (∃ d1, unrleFor c src t k s = .ret (-1) d1 ∧ d1.length = s.d.length ∧
        ∀ i, i < s.wrsz ∨ s.wrsz + k ≤ i → d1[i]? = s.d[i]?) := by
  intro k
  induction k with
  | zero =>
    intro s _ _ _
    exact Or.inl ⟨s, rfl, rfl, rfl, fun _ _ => rfl⟩
  | succ k ih =>
    intro s hc hr hw
    by_cases hchk : t < 2 ∧ s.r = src.length
    · refine Or.inr ⟨s.d, ?_, rfl, fun _ _ => rfl⟩
      simp [unrleFor, hchk]
    · have hv : t < 2 → s.r < src.length := by
        intro ht
        have : s.r ≠ src.length := fun h => hchk ⟨ht, h⟩
        omega
      obtain ⟨v, hv1⟩ := rleValue_some src t s.r hv
      have hst : rleStore c src t s = some (if s.wrsz < c then s.d.set s.wrsz v else s.d) :=
        rleStore_eq hc hv1
      have hfr := frame_store c s.wrsz s.d v
      have hkeep : ∀ i, i ≠ s.wrsz →
          (if s.wrsz < c then s.d.set s.wrsz v else s.d)[i]? = s.d[i]? := by
        intro i hi
        split
        · exact List.getElem?_set_ne (fun h => hi h.symm)
        · rfl
      have hmod : (s.wrsz + 1) % 2 ^ 64 = s.wrsz + 1 := Nat.mod_eq_of_lt (by omega)
      have hr1 : (if t = 0 then s.r + 1 else s.r) ≤ src.length := by
        split
        · have := hv (by omega)
          omega
        · exact hr
      have eF : unrleFor c src t (k + 1) s =
          unrleFor c src t k ⟨if t = 0 then s.r + 1 else s.r, s.wrsz + 1,
            if s.wrsz < c then s.d.set s.wrsz v else s.d⟩ := by
        simp only [unrleFor, hchk, if_false, hst, hmod]
      rw [eF]
      rcases ih ⟨if t = 0 then s.r + 1 else s.r, s.wrsz + 1,
          if s.wrsz < c then s.d.set s.wrsz v else s.d⟩ (by rw [hfr.1]; exact hc) hr1
          (by show s.wrsz + 1 + k < 2 ^ 64; omega) with
        ⟨s1, h1, h2, h3, h4⟩ | ⟨d1, h1, h2, h3⟩
      · refine Or.inl ⟨s1, h1, ?_, ?_, ?_⟩
        · rw [h2]
          show s.wrsz + 1 + k = s.wrsz + (k + 1)
          omega
        · rw [h3]
          exact hfr.1
        · intro i hi
          rw [h4 i (by show i < s.wrsz + 1 ∨ s.wrsz + 1 + k ≤ i; omega)]
          exact hkeep i (by omega)
      · refine Or.inr ⟨d1, h1, ?_, ?_⟩
        · rw [h2]
          exact hfr.1
        · intro i hi
          rw [h3 i (by show i < s.wrsz + 1 ∨ s.wrsz + 1 + k ≤ i; omega)]
          exact hkeep i (by omega)

theorem and_3F_le (b : Nat) : b &&& 0x3F ≤ 63 := Nat.and_le_right

/-- When the input is too short for the counter to wrap, a run from a state
with counter `w` never writes below `w`; on a regular exit the returned count
is the final counter, which is at least `w`, and nothing was written at or
above it. -/
theorem unrleLoop_nowrap {c : Nat} (src : List Byte) :
    ∀ (fuel : Nat) (s : RleState) (v : Int) (d1 : List Byte), c ≤ s.d.length →
      s.r ≤ src.length → s.wrsz + 63 * (src.length - s.r) < 2 ^ 64 →
      unrleLoop c src fuel s = .ret (v, d1) →
      d1.length = s.d.length ∧ (∀ i, i < s.wrsz → d1[i]? = s.d[i]?) ∧
        (0 ≤ v → ∃ wf : Nat, v = (wf : Int) ∧ s.wrsz ≤ wf ∧
          ∀ i, wf ≤ i → d1[i]? = s.d[i]?) := by
  intro fuel
  induction fuel with
  | zero =>
    intro s v d1 _ _ _ h
    simp [unrleLoop] at h
  | succ fuel ih =>
    intro s v d1 hc hr hw h
    by_cases hlt : s.r < src.length
    · have hb : src[s.r]? = some src[s.r] := List.getElem?_eq_getElem hlt
      have hl63 := and_3F_le (src[s.r]).val
      by_cases hl : (src[s.r]).val &&& 0x3F = 0
      · rw [unrleLoop_bad hb hl] at h
        injection h with h
        injection h with hv hd
        subst hv
        subst hd
        exact ⟨rfl, fun _ _ => rfl, fun h => absurd h (by decide)⟩
      · have hw64 : s.wrsz < 2 ^ 64 := by omega
        rcases unrleFor_nowrap src ((src[s.r]).val >>> 6) ((src[s.r]).val &&& 0x3F)
            ⟨s.r + 1, s.wrsz, s.d⟩ hc hlt (by show s.wrsz + _ < 2 ^ 64; omega) with
          ⟨s1, hf, hw1, hlen1, hkeep1⟩ | ⟨d2, hf, hlen2, hkeep2⟩
        · rcases unrleFor_next_facts src _ _ _ _ _ s1 hc hlt hw64 hf with
            ⟨hr0, hr1, hfill, _, _⟩
          rw [unrleLoop_next hb hl hf] at h
          have hw1' : s1.wrsz = s.wrsz + ((src[s.r]).val &&& 0x3F) := hw1
          have hlen1' : s1.d.length = s.d.length := hlen1
          have hr2 : (if (src[s.r]).val >>> 6 = 1 then s1.r + 1 else s1.r) ≤ src.length := by
            split
            · next ht =>
              have := hfill ht (Nat.pos_of_ne_zero hl)
              omega
            · exact hr1
          have hr3 : s.r + 1 ≤ (if (src[s.r]).val >>> 6 = 1 then s1.r + 1 else s1.r) := by
            split <;> omega
          rcases ih ⟨if (src[s.r]).val >>> 6 = 1 then s1.r + 1 else s1.r, s1.wrsz, s1.d⟩ v d1
              (by show c ≤ s1.d.length; omega) hr2
              (by
                show s1.wrsz + 63 *
                  (src.length - (if (src[s.r]).val >>> 6 = 1 then s1.r + 1 else s1.r)) < 2 ^ 64
                omega) h with
            ⟨g1, g2, g3⟩
          refine ⟨by rw [g1]; exact hlen1', ?_, ?_⟩
          · intro i hi
            rw [g2 i (by show i < s1.wrsz; omega)]
            exact hkeep1 i (Or.inl hi)
          · intro hv
            rcases g3 hv with ⟨wf, e1, e2, e3⟩
            have e2' : s1.wrsz ≤ wf := e2
            refine ⟨wf, e1, by omega, fun i hi => ?_⟩
            rw [e3 i hi]
            exact hkeep1 i (Or.inr (by show s.wrsz + _ ≤ i; omega))
        · rw [unrleLoop_ret hb hl hf] at h
          injection h with h
          injection h with hv hd
          subst hv
          subst hd
          exact ⟨hlen2, fun i hi => hkeep2 i (Or.inl hi), fun h => absurd h (by decide)⟩
    · rw [unrleLoop_end hlt] at h
      injection h with h
      injection h with hv hd
      subst hd
      refine ⟨rfl, fun _ _ => rfl, fun h0 => ?_⟩
      refine ⟨s.wrsz, ?_, Nat.le_refl _, fun _ _ => rfl⟩
      rw [← hv] at h0 ⊢
      unfold toSsize at h0 ⊢
      split at h0
      · next h63 => rw [if_pos h63]
      · omega

theorem unrleFor_add (c : Nat) (src : List Byte) (t : Nat) :
    ∀ (a b : Nat) (s s1 : RleState), unrleFor c src t a s = .next s1 →
      unrleFor c src t (a + b) s = unrleFor c src t b s1 := by
  intro a
  induction a with
  | zero =>
    intro b s s1 h
    simp only [unrleFor] at h
    injection h with h
    subst h
    simp
  | succ a ih =>
    intro b s s1 h
    have e : a + 1 + b = (a + b) + 1 := by omega
    rw [e]
    simp only [unrleFor] at h ⊢
    split at h
    · cases h
    · split at h
      · cases h
      · next d1 hst =>
        simp only [*, if_false]
        exact ih b _ s1 h

/-! ### The RLE literal-prefix magic -/

/-- A run, too short for the counter to wrap, on a payload that starts with
`05 N V u c` and decodes successfully: the first four bytes of the destination
are `NVuc`, they are not overwritten, and at least 5 bytes are counted. -/
theorem unrle_magic_prefix (rest dst d : List Byte) (c : Nat) (v : Int)
    (hc4 : 4 ≤ c) (hc : c ≤ dst.length)
    (hlen : ([0x05, 0x4E, 0x56, 0x75, 0x63] ++ rest).length < 2 ^ 57)
    (hrun : unrle dst c ([0x05, 0x4E, 0x56, 0x75, 0x63] ++ rest) = .ret (v, d)) (hv : 0 ≤ v) :
    d.take 4 = [0x4E, 0x56, 0x75, 0x63] ∧ 5 ≤ v ∧ d.length = dst.length := by
  have hsrc : ([0x05, 0x4E, 0x56, 0x75, 0x63] ++ rest : List Byte) =
      [0x05] ++ [0x4E, 0x56, 0x75, 0x63] ++ rest := by simp
  have hn : ([0x05, 0x4E, 0x56, 0x75, 0x63] ++ rest : List Byte).length = 5 + rest.length := by
    simp
    omega
  have hfour := unrleFor_copy hc [0x4E, 0x56, 0x75, 0x63] [0x05] rest [] hsrc
    (by simpa using hc4) (by norm_num)
  simp only [List.length_nil, List.length_cons, List.nil_append, List.drop_zero,
    Nat.zero_add, Nat.reduceAdd] at hfour
  have hfive := unrleFor_add c _ 0 4 1 _ _ hfour
  have hd4len : ([0x4E, 0x56, 0x75, 0x63] ++ dst.drop 4 : List Byte).length = dst.length := by
    simp only [List.length_append, List.length_cons, List.length_nil, List.length_drop]
    omega
  have hb : ([0x05, 0x4E, 0x56, 0x75, 0x63] ++ rest : List Byte)[0]? = some 0x05 := by simp
  have hl0 : ((0x05 : Byte).val &&& 0x3F) ≠ 0 := by decide
  unfold unrle at hrun
  have hc' : c ≤ ([0x4E, 0x56, 0x75, 0x63] ++ dst.drop 4 : List Byte).length := by
    rw [hd4len]
    exact hc
  have h5 : 5 ≤ ([0x05, 0x4E, 0x56, 0x75, 0x63] ++ rest : List Byte).length := by omega
  rcases @unrleFor_nowrap c ([0x05, 0x4E, 0x56, 0x75, 0x63] ++ rest) 0 1
      ⟨5, 4, [0x4E, 0x56, 0x75, 0x63] ++ dst.drop 4⟩ hc' h5 (by norm_num) with
    ⟨s1, hf, hw1, hlen1, hkeep1⟩ | ⟨d2, hf, _, _⟩
  · have hf5 : unrleFor c ([0x05, 0x4E, 0x56, 0x75, 0x63] ++ rest) ((0x05 : Byte).val >>> 6)
        ((0x05 : Byte).val &&& 0x3F) ⟨0 + 1, 0, dst⟩ = .next s1 := by
      rw [← hf, ← hfive]
      rfl
    rw [unrleLoop_next hb hl0 hf5] at hrun
    have hw1' : s1.wrsz = 5 := hw1
    have hlen1' : s1.d.length = dst.length := by
      rw [hlen1]
      exact hd4len
    rcases unrleFor_next_facts _ _ _ _ _ _ s1 hc' h5 (by norm_num) hf with
      ⟨_, hr1, _, _, _⟩
    have e0 : ((0x05 : Byte).val >>> 6 = 1) = False := by decide
    simp only [e0, if_false] at hrun
    rcases unrleLoop_nowrap _ _ ⟨s1.r, s1.wrsz, s1.d⟩ v d (by show c ≤ s1.d.length; omega) hr1
        (by show s1.wrsz + 63 * (_ - s1.r) < 2 ^ 64; omega) hrun with ⟨g1, g2, g3⟩
    rcases g3 hv with ⟨wf, e1, e2, _⟩
    have e2' : s1.wrsz ≤ wf := e2
    refine ⟨?_, by omega, by rw [g1]; exact hlen1'⟩
    have htake : d.take 4 = ([0x4E, 0x56, 0x75, 0x63] ++ dst.drop 4 : List Byte).take 4 := by
      apply List.ext_getElem?
      intro i
      rw [List.getElem?_take, List.getElem?_take]
      split
      · next hi =>
        rw [g2 i (by show i < s1.wrsz; omega)]
        exact hkeep1 i (Or.inl hi)
      · rfl
    rw [htake]
    rfl
  · have hf5 : unrleFor c ([0x05, 0x4E, 0x56, 0x75, 0x63] ++ rest) ((0x05 : Byte).val >>> 6)
        ((0x05 : Byte).val &&& 0x3F) ⟨0 + 1, 0, dst⟩ = .ret (-1) d2 := by
      rw [← hf, ← hfive]
      rfl
    rw [unrleLoop_ret hb hl0 hf5] at hrun
    injection hrun with hrun
    injection hrun with hv1 _
    omega

/-- C18: the RLE literal-prefix magic is a sound shortcut. For every payload
that begins with the 5 bytes `05 N V u c` (of a size whose decoded length a
64-bit counter holds) and every capacity of at least 4, if `unrle` decodes the
payload successfully then the first four output bytes are `NVuc`, so that the
object-type classification of the decoded bytes is microcode archive. -/
theorem rle_magic_sound (rest dst d : List Byte) (c : Nat) (v : Int)
    (hc4 : 4 ≤ c) (hc : c ≤ dst.length)
    (hlen : ([0x05, 0x4E, 0x56, 0x75, 0x63] ++ rest).length < 2 ^ 57)
    (hrun : unrle dst c ([0x05, 0x4E, 0x56, 0x75, 0x63] ++ rest) = .ret (v, d)) (hv : 0 ≤ v) :
    findMagic packmagic ([0x05, 0x4E, 0x56, 0x75, 0x63] ++ rest) = PACKFMT_RLE ∧
      d.take 4 = [0x4E, 0x56, 0x75, 0x63] ∧
      ∀ k, 4 ≤ k → classifyObject (d.take k) = OBJTYPE_NVUC := by
  rcases unrle_magic_prefix rest dst d c v hc4 hc hlen hrun hv with ⟨h4, _, _⟩
  refine ⟨?_, h4, fun k hk => ?_⟩
  · simp [findMagic_packmagic]
  · have hp : [0x4E, 0x56, 0x75, 0x63] <+: d.take k := by
      rw [← h4]
      exact List.take_prefix_take_left d hk
    simp [classifyObject, findMagic_objmagic, hp]

theorem rle_magic_sound_witness :
    findMagic packmagic ([0x05, 0x4E, 0x56, 0x75, 0x63] ++ [0x21, 0x83]) = PACKFMT_RLE ∧
      ([0x4E, 0x56, 0x75, 0x63, 0x21, 0xFF, 0xFF, 0xFF] : List Byte).take 4 =
        [0x4E, 0x56, 0x75, 0x63] ∧
      ∀ k, 4 ≤ k →
        classifyObject (([0x4E, 0x56, 0x75, 0x63, 0x21, 0xFF, 0xFF, 0xFF] : List Byte).take k) =
          OBJTYPE_NVUC :=
  rle_magic_sound [0x21, 0x83] [0, 0, 0, 0, 0, 0, 0, 0]
    [0x4E, 0x56, 0x75, 0x63, 0x21, 0xFF, 0xFF, 0xFF] 8 8
    (by decide) (by decide) (by decide) (by decide) (by decide)

/-! ### RLE packing guessed from the size probe -/

/-- C20 as stated fails: the blob below holds one section whose 9-byte payload
`08 N V V M N V u c` is a copy record of 8 bytes and whose header declares
uncompressed size 8. No packing magic matches, the payload length differs from
8 and the size probe yields 8, so the entry is classified RLE by the fallback;
the decode succeeds with 8 bytes, but the decoded bytes carry the outer tag and
the decompressed artifact that is emitted has 4 bytes, not 8. -/
theorem rle_fallback_stripped_counterexample :
    findMagic packmagic [0x08, 0x4E, 0x56, 0x56, 0x4D, 0x4E, 0x56, 0x75, 0x63] = 0 ∧
      ([0x08, 0x4E, 0x56, 0x56, 0x4D, 0x4E, 0x56, 0x75, 0x63] : List Byte).length ≠ 8 ∧
      unrle [] 0 [0x08, 0x4E, 0x56, 0x56, 0x4D, 0x4E, 0x56, 0x75, 0x63] = .ret (8, []) ∧
      unrle [0, 0, 0, 0, 0, 0, 0, 0] 8 [0x08, 0x4E, 0x56, 0x56, 0x4D, 0x4E, 0x56, 0x75, 0x63] =
        .ret (8, [0x4E, 0x56, 0x56, 0x4D, 0x4E, 0x56, 0x75, 0x63]) ∧
      processEntry ⟨fun _ _ => none, fun _ => 0⟩
        [0x9D, 0xA1, 0x46, 0x98, 0, 0, 0, 0, 0, 0, 0, 0, 0, 0, 0, 0, 0, 0, 0, 0, 0, 0, 0, 0,
          0, 0, 0, 0, 13, 0, 0, 0, 8, 0, 0, 0,
          0x08, 0x4E, 0x56, 0x56, 0x4D, 0x4E, 0x56, 0x75, 0x63] 0 0 13 =
        .ret (some [("header00000.bin",
            [0x9D, 0xA1, 0x46, 0x98, 0, 0, 0, 0, 0, 0, 0, 0, 0, 0, 0, 0, 0, 0, 0, 0, 0, 0, 0, 0,
              0, 0, 0, 0, 13, 0, 0, 0, 8, 0, 0, 0]),
          ("object00000.rle", [0x08, 0x4E, 0x56, 0x56, 0x4D, 0x4E, 0x56, 0x75, 0x63]),
          ("object00000.nvuc", [0x4E, 0x56, 0x75, 0x63])]) ∧
      ([0x4E, 0x56, 0x75, 0x63] : List Byte).length ≠ 8 := by
  refine ⟨by decide, by decide, by decide, by decide, by decide, by decide⟩

/-- A payload that no packing magic matches, whose length differs from the
declared size and whose size probe yields the declared size, is classified
RLE. -/
theorem classifyPacking_fallback_rle (P : List Byte) (U : Nat)
    (h1 : ¬ [0x05, 0x4E, 0x56, 0x75, 0x63] <+: P) (h2 : ¬ [0x28, 0xB5, 0x2F, 0xFD] <+: P)
    (h3 : ¬ ([0x0A, 0x00, 0x00, 0x00] <+: P ∨ [0x0B, 0x00, 0x00, 0x00] <+: P))
    (hne : P.length ≠ U) (hprobe : unrle [] 0 P = .ret ((U : Int), [])) :
    classifyPacking P U = .ret PACKFMT_RLE := by
  have h0 : P ≠ [0x00] := by
    intro h
    subst h
    have : unrle [] 0 [0x00] = .ret (-2, []) := by decide
    rw [this] at hprobe
    injection hprobe with hprobe
    injection hprobe with hprobe _
    omega
  rw [classifyPacking_eq]
  simp [specPackingAmended, specPacking, h0, h1, h2, h3, hne, hprobe, PackKind.code]

/-- A run that returns `U` with capacity `U`, on an input too short for the
counter to wrap, leaves exactly what a run with any larger capacity leaves in
its first `U` bytes, and such a run writes nothing from index `U` on. -/
theorem unrle_complete (P dst d : List Byte) (U : Nat) (hU : U ≤ dst.length)
    (hsize : P.length < 2 ^ 32) (hrun : unrle dst U P = .ret ((U : Int), d))
    (hdlen : dst.length = U) (dstF : List Byte) (cF : Nat) (hcF : U ≤ cF)
    (hF : cF ≤ dstF.length) :
    unrle dstF cF P = .ret ((U : Int), d ++ dstF.drop U) := by
  rcases unrle_sim P dst dstF U cF hU hF with ⟨v, dA1, dB1, e1, e2, f1, f2, hv⟩
  rw [hrun] at e1
  injection e1 with e1
  injection e1 with ev ed
  subst ed
  subst ev
  rcases hv with (hv | hv) | ⟨w1, hw1, hv, hag⟩
  · omega
  · omega
  · have hwn : w1 = U := toSsize_eq_natCast hw1 hv
    subst hwn
    have hnw := unrleLoop_nowrap P (P.length + 1) ⟨0, 0, dstF⟩ (w1 : Int) dB1 hF
      (Nat.zero_le _) (by show 0 + 63 * (P.length - 0) < 2 ^ 64; omega) e2
    rcases hnw with ⟨g1, _, g3⟩
    rcases g3 (by omega) with ⟨wf, ewf, _, hkeep⟩
    have hwf : wf = w1 := by omega
    subst hwf
    have hdl : d.length = wf := by
      rw [f1.1]
      exact hdlen
    rw [e2]
    congr 2
    apply List.ext_getElem?
    intro i
    by_cases hi : i < wf
    · rw [List.getElem?_append_left (by omega)]
      exact (hag i (by rw [Nat.min_eq_left hcF]; exact hi) hi).symm
    · rw [List.getElem?_append_right (by omega), List.getElem?_drop, hkeep i (by omega), hdl]
      congr 1
      omega

/-- C20 (amended): an entry classified RLE by the size-probe fallback never
fails decompression. For every payload `P` (of a length a 32-bit field holds)
and declared uncompressed size `U` such that no packing magic matches, the
length of `P` differs from `U` and the size probe of `P` yields `U`: the entry
is classified RLE; the decode with capacity `U` returns `U`, so the size check
passes; the buffer holds the complete decoded stream (a decode with any larger
capacity leaves the same `U` bytes and writes nothing behind them); and a
decompressed object artifact is emitted, holding these `U` bytes, or the last
`U - 4` of them when they start with `NVVMNVuc`. -/
theorem rle_fallback_decompresses (env : Env) (i : Nat) (hdr P : List Byte) (U : Nat)
    (h1 : ¬ [0x05, 0x4E, 0x56, 0x75, 0x63] <+: P) (h2 : ¬ [0x28, 0xB5, 0x2F, 0xFD] <+: P)
    (h3 : ¬ ([0x0A, 0x00, 0x00, 0x00] <+: P ∨ [0x0B, 0x00, 0x00, 0x00] <+: P))
    (hne : P.length ≠ U) (hprobe : unrle [] 0 P = .ret ((U : Int), []))
    (hsize : P.length < 2 ^ 32) :
    classifyPacking P U = .ret PACKFMT_RLE ∧
      ∃ d, unrle (env.malloc U) U P = .ret ((U : Int), d) ∧ d.length = U ∧
        decompress env PACKFMT_RLE P U = .ret (some d) ∧
        (∀ (dstF : List Byte) (cF : Nat), U ≤ cF → cF ≤ dstF.length →
          unrle dstF cF P = .ret ((U : Int), d ++ dstF.drop U)) ∧
        ∃ oext, oext ∈ ["arbbin", "nvuc", "bin"] ∧
          emitEntry env i hdr P U =
            .ret [(headerName i, hdr), (objectName i "rle", P),
              (objectName i oext,
                if [0x4E, 0x56, 0x56, 0x4D, 0x4E, 0x56, 0x75, 0x63] <+: d then d.drop 4
                else d)] := by
  have hpf := classifyPacking_fallback_rle P U h1 h2 h3 hne hprobe
  have hml : (env.malloc U).length = U := env.length_malloc U
  rcases unrle_probe_agree P (env.malloc U) U (by rw [hml]) with ⟨v0, d, hp0, hrun⟩
  rw [hprobe] at hp0
  injection hp0 with hp0
  injection hp0 with hv0 _
  subst hv0
  rcases unrle_total P (env.malloc U) U (by rw [hml]) with ⟨v1, d1, hrun1, hlen1⟩
  rw [hrun] at hrun1
  injection hrun1 with hrun1
  injection hrun1 with _ hd1
  subst hd1
  have hdlen : d.length = U := by
    rw [hlen1]
    exact hml
  have hd : decompress env PACKFMT_RLE P U = .ret (some d) := by
    have hnn : ¬ ((U : Int) < 0) := by omega
    simp only [decompress, hrun, Exec.bind, hnn, if_false, ne_eq, not_true_eq_false,
      Int.toNat_ofNat]
    simp [← hdlen]
  rcases objectArtifact_spec d with ⟨oext, ho, hmem, hbytes⟩
  refine ⟨hpf, d, hrun, hdlen, hd, fun dstF cF hcF hF => ?_, oext, hmem, ?_⟩
  · exact unrle_complete P (env.malloc U) d U (by rw [hml]) hsize hrun hml dstF cF hcF hF
  · rw [emitEntry_object hpf (by decide) rfl hd ho, hbytes]

theorem rle_fallback_decompresses_witness :
    classifyPacking [0x02, 7, 8, 0x83] 5 = .ret PACKFMT_RLE ∧
      ∃ d, unrle (Env.malloc ⟨fun _ _ => none, fun _ => 9⟩ 5) 5 [0x02, 7, 8, 0x83] =
          .ret (((5 : Nat) : Int), d) ∧
        d.length = 5 ∧
        decompress ⟨fun _ _ => none, fun _ => 9⟩ PACKFMT_RLE [0x02, 7, 8, 0x83] 5 =
          .ret (some d) ∧
        (∀ (dstF : List Byte) (cF : Nat), 5 ≤ cF → cF ≤ dstF.length →
          unrle dstF cF [0x02, 7, 8, 0x83] = .ret (((5 : Nat) : Int), d ++ dstF.drop 5)) ∧
        ∃ oext, oext ∈ ["arbbin", "nvuc", "bin"] ∧
          emitEntry ⟨fun _ _ => none, fun _ => 9⟩ 1 [3] [0x02, 7, 8, 0x83] 5 =
            .ret [(headerName 1, [3]), (objectName 1 "rle", [0x02, 7, 8, 0x83]),
              (objectName 1 oext,
                if [0x4E, 0x56, 0x56, 0x4D, 0x4E, 0x56, 0x75, 0x63] <+: d then d.drop 4
                else d)] :=
  rle_fallback_decompresses ⟨fun _ _ => none, fun _ => 9⟩ 1 [3] [0x02, 7, 8, 0x83] 5
    (by decide) (by decide) (by decide) (by decide) (by decide) (by decide)

/-- The range check of the section loop adds offset and length in `uint32_t`:
for the 64-byte archive below, whose only section has offset 4 and length
`0xFFFFFFFC`, the wrapped sum is 0, the check passes and the section is read
outside the archive. -/
theorem section_sum_wraps :
    processSection
      [0x4E, 0x56, 0x75, 0x63, 0, 0, 0, 0, 1, 0, 0, 0, 0, 0, 0, 0, 0, 0, 0, 0, 0, 0, 0, 0,
        0, 0, 0, 0, 0, 0, 0, 0,
        0xAB, 0, 0, 0, 0xFC, 0xFF, 0xFF, 0xFF, 4, 0, 0, 0, 0, 0, 0, 0, 0, 0, 0, 0, 0, 0, 0, 0,
        0, 0, 0, 0, 0, 0, 0, 0] 64 0 = .oob := by
  decide

end NvCache
